import Mathlib

/-!
Verification of the ArchiveFreezer tag-propagation engine (`src/main.py`)
against its natural-language specification.

The embedding models:
* JSON-like values stored in per-directory state records (`.frozen` files);
* the directive-file parser `parse_freezefile`;
* the iterative/recursive walk `apply_tag` with its explicit work stack,
  per-directory state load/validate/save, and remote tagging calls
  (modelled by an oracle `S3 : Path → Bool` plus a call log);
* the top-level driver (directive discovery, root selection, per-root runs).

File-system state is a function from absolute paths (segment lists under the
mount root) to optional directory listings.  Remote calls, processed
directories and results are logged so that theorems can speak about them.
-/

namespace ArchiveFreezer

/-! ### Character-level string helpers (Python string semantics) -/

/-- `pre` is a prefix of `s` (Python `str.startswith`). -/
def strStarts (s pre : String) : Bool := pre.data.isPrefixOf s.data

/-- Python slice `s[n:]` (by characters). -/
def strDropN (s : String) (n : Nat) : String := String.mk (s.data.drop n)

/-- Python slice `s[:n]` (by characters). -/
def strTakeN (s : String) (n : Nat) : String := String.mk (s.data.take n)

/-- Python `len(s)` (in characters). -/
def strLen (s : String) : Nat := s.data.length

/-- Helper for `splitOnChar`: accumulates the current segment (reversed). -/
def splitOnCharAux (c : Char) : List Char → List Char → List (List Char)
  | [], acc => [acc.reverse]
  | d :: rest, acc =>
    if d = c then acc.reverse :: splitOnCharAux c rest []
    else splitOnCharAux c rest (d :: acc)

/-- Python `s.split(c)` for a single-character separator. -/
def splitOnChar (c : Char) (s : String) : List (List Char) :=
  splitOnCharAux c s.data []

/-! ### JSON values

The program only ever reads or writes JSON at two levels: a state record is
an object whose field values are strings, flat string-valued objects (tag
sets) or arrays of strings.  The embedding therefore uses a two-level,
non-recursive JSON type: `JAtom` for field values and `JVal` for whole
file contents. -/

/-- A JSON value appearing as the value of a record field. -/
inductive JAtom where
  | astr (s : String)
  | aobj (fields : List (String × String))
  | aarr (elems : List String)
deriving DecidableEq

/-- The JSON content of a file: a string, an object (with `JAtom` values),
or an array of strings. -/
inductive JVal where
  | jstr (s : String)
  | jobj (fields : List (String × JAtom))
  | jarr (elems : List String)
deriving DecidableEq

/-- First-match lookup in a JSON object's field list (Python `d[k]` for the
unique-key dicts produced by `json.load`). -/
def jGetF (fields : List (String × JAtom)) (k : String) : Option JAtom :=
  match fields with
  | [] => none
  | (k2, v) :: rest => if k2 = k then some v else jGetF rest k

/-- Lookup of key `k` in a JSON object. -/
def jGet (j : JVal) (k : String) : Option JAtom :=
  match j with
  | .jobj fields => jGetF fields k
  | _ => none

/-! ### Tag sets and module constants (`main.py` lines 10-14) -/

/-- A tag set: a Python `dict[str, str]` as an association list with unique
keys, in insertion order. -/
abbrev Tags := List (String × String)

/-- `FREEZEFILE_PREFIX = '.freeze.'` -/
def FREEZEFILE_PREFIX : String := ".freeze."

/-- `FROZENFILE = '.frozen'` -/
def FROZENFILE : String := ".frozen"

/-- `FREEZEFILE_TAGS = {'storage-class': 'infrequent-access'}` -/
def FREEZEFILE_TAGS : Tags := [("storage-class", "infrequent-access")]

/-- First-match lookup in a `dict[str, str]` association list. -/
def dLookup (d : List (String × String)) (k : String) : Option String :=
  match d with
  | [] => none
  | (k2, v) :: rest => if k2 = k then some v else dLookup rest k

/-- Python `==` between two `dict[str, str]` values: same keys, same values
(insertion order irrelevant). -/
def dictEq (a b : List (String × String)) : Bool :=
  a.all (fun kv => dLookup b kv.1 = some kv.2) &&
  b.all (fun kv => dLookup a kv.1 = some kv.2)

/-- Python `==` between a `dict[str, str]` (the tag set about to be applied)
and a JSON field value loaded from a record (`using_tag == old_tag`,
line 117).  A dict equals another dict with the same key/value pairs and
never equals a string or a list. -/
def tagsMatchA (t : Tags) (a : JAtom) : Bool :=
  match a with
  | .aobj fields => dictEq t fields
  | _ => false

/-- Python dict update `d[k] = v` for an association list: replaces the
value in place if the key exists, otherwise appends. -/
def dictInsert (d : List (String × String)) (k v : String) :
    List (String × String) :=
  match d with
  | [] => [(k, v)]
  | (k2, v2) :: rest =>
    if k2 = k then (k2, v) :: rest else (k2, v2) :: dictInsert rest k v

/-! ### `parse_freezefile` (lines 51-55)

`parse_freezefile` splits the file name after the fixed prefix on `;`, then
splits each segment on `=` and indexes positions 0 and 1.  A segment with no
`=` yields a single-element list and the position-1 index raises an
`IndexError`.  The embedding returns `none` for that uncaught exception. -/

/-- Builds the dict of a successful parse left to right (Python dict
comprehension order, later keys override); `none` if some segment has no
`=` (the `x[1]` `IndexError`). -/
def parseSegments (acc : Tags) (segs : List (List Char)) : Option Tags :=
  match segs with
  | [] => some acc
  | seg :: rest =>
    match splitOnChar '=' (String.mk seg) with
    | k :: v :: _ => parseSegments (dictInsert acc (String.mk k) (String.mk v)) rest
    | _ => none

/-- `parse_freezefile(freezefile)`: `none` models the uncaught `IndexError`
raised when a `;`-segment after the prefix contains no `=`. -/
def parse_freezefile (freezefile : String) : Option Tags :=
  parseSegments [] (splitOnChar ';' (strDropN freezefile (strLen FREEZEFILE_PREFIX)))

/-! ### State record schema (`CONFIG_SCHEMA`, lines 16-36) -/

/-- The value is present and of JSON type `object`. -/
def isAObj : Option JAtom → Bool
  | some (.aobj _) => true
  | _ => false

/-- The value is present and of JSON type `array` (of strings). -/
def isAArr : Option JAtom → Bool
  | some (.aarr _) => true
  | _ => false

/-- `jsonschema.validate(instance, CONFIG_SCHEMA)` as a boolean: the
instance must be an object carrying all four required keys, with
`rule-at`, `applied-tags` and `freezefile-tags` of JSON type *object* and
`affected-files` an array of strings.  (The schema really does demand an
object for `rule-at`, although line 137 stores a string there.)  Additional
keys are allowed, as in JSON Schema. -/
def validateRecord (j : JVal) : Bool :=
  match j with
  | .jobj fields =>
    isAObj (jGetF fields "rule-at") && isAObj (jGetF fields "applied-tags") &&
      isAObj (jGetF fields "freezefile-tags") && isAArr (jGetF fields "affected-files")
  | _ => false

/-- The in-memory `frozen` dict during processing of one directory: the four
schema fields plus any extra keys a loaded record carried. -/
structure Frozen where
  ruleAt : JAtom
  appliedTags : JAtom
  freezefileTags : JAtom
  affected : List String
  extra : List (String × JAtom)
deriving DecidableEq

/-- The four schema keys. -/
def recordKeys : List String :=
  ["rule-at", "applied-tags", "freezefile-tags", "affected-files"]

/-- `dict(BASE_CONFIG)` with a fresh empty `affected-files` list
(lines 37-42 and 90-91). -/
def baseFrozen : Frozen :=
  { ruleAt := .astr "", appliedTags := .aobj [], freezefileTags := .aobj [],
    affected := [], extra := [] }

/-- Converts a schema-valid JSON record into the in-memory dict. -/
def frozenOfJ (j : JVal) : Frozen :=
  match j with
  | .jobj fields =>
    { ruleAt := (jGetF fields "rule-at").getD (.astr "")
      appliedTags := (jGetF fields "applied-tags").getD (.aobj [])
      freezefileTags := (jGetF fields "freezefile-tags").getD (.aobj [])
      affected := match jGetF fields "affected-files" with
        | some (.aarr l) => l
        | _ => []
      extra := fields.filter (fun kv => !(recordKeys.contains kv.1)) }
  | _ => baseFrozen

/-! ### File-system model -/

/-- A directory entry: a subdirectory, or a file whose JSON content is
`some j` if it parses as JSON and `none` otherwise (content is only ever
read for the `.frozen` record file). -/
inductive EKind where
  | dirE
  | fileE (content : Option JVal)
deriving DecidableEq

/-- An ordered directory listing (`os.scandir` order). -/
abbrev Listing := List (String × EKind)

/-- An absolute resolved path: name segments under the mount root. -/
abbrev Path := List String

/-- The configured local mirror root (`S3_MOUNT_PATH`), rendered. -/
def S3_MOUNT_PATH : String := "/mnt"

/-- `str(Path(...).resolve())` for a path under the mount root. -/
def pathString (p : Path) : String :=
  p.foldl (fun acc s => acc ++ "/" ++ s) S3_MOUNT_PATH

/-- The file system: directory listings keyed by absolute path. -/
abbrev FS := Path → Option Listing

/-- A finite file system given by an explicit table. -/
def fsOfList (l : List (Path × Listing)) : FS :=
  fun p => (l.find? (fun e => e.1 == p)).map (fun e => e.2)

/-- Replace the listing at one path. -/
def fsSet (fs : FS) (p : Path) (es : Listing) : FS :=
  fun q => if q = p then some es else fs q

/-- First-match lookup of a named entry in a listing. -/
def findEntry (es : Listing) (n : String) : Option EKind :=
  match es with
  | [] => none
  | (n2, k) :: rest => if n2 = n then some k else findEntry rest n

/-- `os.remove` of a named entry (all occurrences; names are unique in a
real directory). -/
def removeEntry (es : Listing) (n : String) : Listing :=
  es.filter (fun e => !(e.1 == n))

/-- Create or overwrite a named entry, keeping its listing position. -/
def setEntry (es : Listing) (n : String) (k : EKind) : Listing :=
  match es with
  | [] => [(n, k)]
  | (n2, k2) :: rest =>
    if n2 = n then (n2, k) :: rest else (n2, k2) :: setEntry rest n k

/-- The entry named `n` of directory `p`, if both exist. -/
def entryAt (fs : FS) (p : Path) (n : String) : Option EKind :=
  match fs p with
  | some es => findEntry es n
  | none => none

/-- The `.frozen` state-record entry of directory `p`. -/
def recordAt (fs : FS) (p : Path) : Option EKind :=
  entryAt fs p FROZENFILE

/-- `Path(path).glob('.freeze.*')`: entries whose name carries the directive
prefix, in listing order (pathlib does not special-case dot files). -/
def globMarkers (es : Listing) : Listing :=
  es.filter (fun e => strStarts e.1 FREEZEFILE_PREFIX)

/-- The names of subdirectory entries, in listing order. -/
def dirKids (es : Listing) : List String :=
  es.filterMap (fun e => match e.2 with | .dirE => some e.1 | _ => none)

/-- Lines 84-92: `open`/`json.load`/`jsonschema.validate` wrapped in a bare
`except`.  Returns the record to use plus the validity flag; any failure
(entry absent, entry is a directory, unparseable content, schema-invalid
content) lands in the `except` branch: `(BASE_CONFIG with fresh
affected-files, False)`.  Total: the exception never escapes. -/
def loadFrozen (es : Listing) : Frozen × Bool :=
  match findEntry es FROZENFILE with
  | some (.fileE (some j)) =>
    if validateRecord j then (frozenOfJ j, true) else (baseFrozen, false)
  | _ => (baseFrozen, false)

/-! ### Record serialization (lines 136-140) -/

/-- Code-point comparison of characters (Python string ordering). -/
def charLeB (a b : Char) : Bool := Nat.ble a.toNat b.toNat

/-- Lexicographic `<=` on character lists by code points. -/
def lexLeChars : List Char → List Char → Bool
  | [], _ => true
  | _ :: _, [] => false
  | c :: cs, d :: ds => if c = d then lexLeChars cs ds else charLeB c d

/-- Lexicographic `<=` on strings by code points (Python string order). -/
def strLeB (a b : String) : Bool := lexLeChars a.data b.data

/-- Insert a field keeping keys sorted (stable). -/
def insertByKey (x : String × JAtom) : List (String × JAtom) → List (String × JAtom)
  | [] => [x]
  | y :: rest => if strLeB x.1 y.1 then x :: y :: rest else y :: insertByKey x rest

/-- `json.dump(..., sort_keys=True)` key ordering. -/
def sortByKey : List (String × JAtom) → List (String × JAtom)
  | [] => []
  | x :: rest => insertByKey x (sortByKey rest)

/-- The record written for a directory after its entries are processed:
the in-memory dict with `rule-at := rule_path`, `applied-tags := tags`,
`freezefile-tags := FREEZEFILE_TAGS` and the accumulated `affected-files`,
keys sorted. -/
def dumpRecord (fr : Frozen) (rulePath : String) (tags : Tags) : JVal :=
  .jobj (sortByKey (fr.extra ++
    [("rule-at", .astr rulePath),
     ("applied-tags", .aobj tags),
     ("freezefile-tags", .aobj FREEZEFILE_TAGS),
     ("affected-files", .aarr fr.affected)]))

/-! ### The propagation walk (`apply_tag`, lines 58-142) -/

/-- The remote tagging service: whether `s3.put_object_tagging` succeeds
for the object at the given absolute path (the key sent is the path with
the mount prefix stripped). -/
abbrev S3 := Path → Bool

/-- Accumulator for the per-entry loop over one directory (lines 98-134). -/
structure PState where
  affected : List String
  state : Bool
  processed : List Path
  failed : List Path
  calls : List Path
  kids : List Path

/-- One iteration of the `for file in os.listdir(path)` loop:
hidden-name skip (line 100), subdirectory push (lines 104-107), marker /
record classification (lines 109-115), idempotence skip (line 117), remote
call with failure bookkeeping (lines 122-134). -/
def procEntry (s3 : S3) (tags : Tags) (fApplied fFreeze : JAtom) (p : Path)
    (ps : PState) (e : String × EKind) : PState :=
  if strStarts e.1 "." then ps
  else
    match e.2 with
    | .dirE => { ps with kids := ps.kids ++ [p ++ [e.1]] }
    | .fileE _ =>
      let isMarkerFile := strStarts e.1 FREEZEFILE_PREFIX || e.1 == FROZENFILE
      let usingTag : Tags := if isMarkerFile then FREEZEFILE_TAGS else tags
      let oldTag : JAtom := if isMarkerFile then fFreeze else fApplied
      if tagsMatchA usingTag oldTag && ps.affected.contains e.1 then ps
      else
        let fp := p ++ [e.1]
        if s3 fp then
          { ps with
            calls := ps.calls ++ [fp]
            processed := ps.processed ++ [fp]
            affected :=
              if dictEq usingTag tags then ps.affected ++ [e.1] else ps.affected }
        else
          { ps with
            calls := ps.calls ++ [fp]
            state := false
            failed := ps.failed ++ [fp] }

/-- The whole entry loop over a directory's listing. -/
def procEntries (s3 : S3) (tags : Tags) (fApplied fFreeze : JAtom) (p : Path) :
    Listing → PState → PState
  | [], ps => ps
  | e :: es, ps =>
    procEntries s3 tags fApplied fFreeze p es (procEntry s3 tags fApplied fFreeze p ps e)

/-- Write the updated record for a directory (lines 136-140): `none` models
the uncaught `IsADirectoryError` when the `.frozen` entry is a directory. -/
def writeRecord (fs : FS) (p : Path) (es : Listing) (j : JVal) : Option FS :=
  match findEntry es FROZENFILE with
  | some .dirE => none
  | _ => some (fsSet fs p (setEntry es FROZENFILE (.fileE (some j))))

/-- Outcome of handling one popped directory in the non-marker case
(lines 84-140). -/
inductive DirStep where
  | conflict
  | bad
  | went (fs2 : FS) (ok : Bool) (pr fl calls kids : List Path)

/-- Lines 84-140 for one popped directory `path` with listing `es`:
load-and-validate the record, early `return True, [], []` on a rule
conflict, otherwise run the entry loop and persist the updated record. -/
def processDir (s3 : S3) (rulePath : Path) (tags : Tags) (fs : FS)
    (path : Path) (es : Listing) : DirStep :=
  let fv := loadFrozen es
  if fv.2 ∧ fv.1.ruleAt ≠ .astr (pathString rulePath) then .conflict
  else
    let ps := procEntries s3 tags fv.1.appliedTags fv.1.freezefileTags path es
      ⟨fv.1.affected, true, [], [], [], []⟩
    match writeRecord fs path es
        (dumpRecord { fv.1 with affected := ps.affected } (pathString rulePath) tags) with
    | none => .bad
    | some fs2 => .went fs2 (fv.2 && ps.state) ps.processed ps.failed ps.calls ps.kids

/-- Result of one `apply_tag` invocation.  `ok` carries the final file
system, the global log of attempted remote calls, the log of directories
whose entry loop ran, and `(state, processed_files, failed_files)`.
`exn` models an uncaught Python exception; `fuelOut` an exhausted step
budget (the embedding's termination device, not a program behaviour). -/
inductive WalkOut where
  | ok (fs : FS) (calls : List Path) (procLog : List Path)
      (state : Bool) (processed : List Path) (failed : List Path)
  | exn
  | fuelOut

/-- The `while True` work-stack loop of `apply_tag`.  The stack top is at
the head (Python appends children and pops from the end, so a popped
directory's children are pushed reversed).  `calls` and `procLog` are
global effect logs threaded through nested invocations; `processed` /
`failed` are the invocation-local lists of the source. -/
def applyTagLoop (s3 : S3) : Nat → Path → Path → Tags → FS → List Path →
    Bool → List Path → List Path → List Path → List Path → WalkOut
  | 0, _, _, _, _, _, _, _, _, _, _ => .fuelOut
  | Nat.succ fuel, t, r, tags, fs, stack, state, pr, fl, calls, plog =>
    match stack with
    | [] => .ok fs calls plog state pr fl
    | path :: rest =>
      match fs path with
      | none => .exn
      | some es =>
        match (if path = t then [] else globMarkers es) with
        | (mname, mkind) :: _ =>
          -- lines 73-82: nested directive marker takes over this directory
          match parse_freezefile mname with
          | none => .exn
          | some parsed =>
            match applyTagLoop s3 fuel path r parsed fs [path] true [] [] calls plog with
            | .ok fs2 calls2 plog2 st2 pr2 fl2 =>
              match mkind with
              | .dirE => .exn
              | .fileE _ =>
                match fs2 path with
                | none => .exn
                | some es2 =>
                  applyTagLoop s3 fuel t r tags
                    (fsSet fs2 path (removeEntry es2 mname)) rest
                    (state && st2) (pr ++ pr2) (fl ++ fl2) calls2 plog2
            | .exn => .exn
            | .fuelOut => .fuelOut
        | [] =>
          match processDir s3 r tags fs path es with
          | .conflict => .ok fs calls plog true [] []
          | .bad => .exn
          | .went fs2 dok dpr dfl dcalls kids =>
            applyTagLoop s3 fuel t r tags fs2 (kids.reverse ++ rest)
              (state && dok) (pr ++ dpr) (fl ++ dfl) (calls ++ dcalls)
              (plog ++ [path])

/-- `apply_tag(target_path, rule_path, tags)` (line 58): the work stack
starts as `[target_path]` with `state = True` and empty lists. -/
def apply_tag (s3 : S3) (fuel : Nat) (fs : FS) (targetPath rulePath : Path)
    (tags : Tags) : WalkOut :=
  applyTagLoop s3 fuel targetPath rulePath tags fs [targetPath] true [] [] [] []

/-! ### Observations on a walk result (for decidable statements) -/

/-- The `(state, processed, failed)` triple of a normal return. -/
def WalkOut.resOf : WalkOut → Option (Bool × List Path × List Path)
  | .ok _ _ _ st pr fl => some (st, pr, fl)
  | _ => none

/-- The remote-call log of a normal return. -/
def WalkOut.callsOf : WalkOut → Option (List Path)
  | .ok _ calls _ _ _ _ => some calls
  | _ => none

/-- The processed-directories log of a normal return. -/
def WalkOut.plogOf : WalkOut → Option (List Path)
  | .ok _ _ plog _ _ _ => some plog
  | _ => none

/-- The named entry of directory `p` in the final file system. -/
def WalkOut.entryOf (w : WalkOut) (p : Path) (n : String) : Option (Option EKind) :=
  match w with
  | .ok fs _ _ _ _ _ => some (entryAt fs p n)
  | _ => none

/-- The `.frozen` record entry of directory `p` in the final file system. -/
def WalkOut.recOf (w : WalkOut) (p : Path) : Option (Option EKind) :=
  w.entryOf p FROZENFILE

/-- Field `k` of the parsed `.frozen` record of `p` in the final file
system (`none` outside, `some none` when absent or unparseable). -/
def WalkOut.fieldOf (w : WalkOut) (p : Path) (k : String) : Option (Option JAtom) :=
  match w with
  | .ok fs _ _ _ _ _ =>
    some (match recordAt fs p with
      | some (.fileE (some j)) => jGet j k
      | _ => none)
  | _ => none

/-- Whether the walk returned normally. -/
def WalkOut.isOk : WalkOut → Bool
  | .ok _ _ _ _ _ _ => true
  | _ => false

/-! ### The top-level driver (`__main__`, lines 144-162) -/

/-- `Path(S3_MOUNT_PATH).rglob('.freeze.*')`: all directive-marker paths,
visiting each directory before its subdirectories, entries in listing
order (pathlib wildcard matching does not skip dot names and recursion
enters every subdirectory).  The `Nat` argument bounds the recursion
depth. -/
def rglobMarkers (fs : FS) : Nat → Path → List Path
  | 0, _ => []
  | Nat.succ depth, p =>
    match fs p with
    | none => []
    | some es =>
      (globMarkers es).map (fun e => p ++ [e.1]) ++
        (dirKids es).foldr (fun n acc => rglobMarkers fs depth (p ++ [n]) ++ acc) []

/-- Stable insertion for `sorted(..., key=lambda x: len(x))`. -/
def insertByLen (x : Path) : List Path → List Path
  | [] => [x]
  | y :: rest =>
    if strLen (pathString x) ≤ strLen (pathString y) then x :: y :: rest
    else y :: insertByLen x rest

/-- `sorted(candidates, key=len)` (stable, ascending by string length). -/
def sortByLen : List Path → List Path
  | [] => []
  | x :: rest => insertByLen x (sortByLen rest)

/-- Lines 147-152: accumulate target folders, skipping any candidate that
starts with an already-accepted folder plus the path separator. -/
def selectRoots (acc : List Path) : List Path → List Path
  | [] => acc
  | c :: cs =>
    if acc.any (fun x => strStarts (pathString c) (pathString x ++ "/")) then
      selectRoots acc cs
    else selectRoots (acc ++ [c]) cs

/-- The notification text (lines 159-162), with its 4000-character
truncation. -/
def noteText (tgt : Path) (st : Bool) : String :=
  "Freezing path " ++
    (if strLen (pathString tgt) ≤ 4000 then pathString tgt
     else strTakeN (pathString tgt) 3997 ++ "...") ++
    " " ++ (if st then "Succeeded" else "Failed")

/-- Result of a driver pass: the final file system, the global remote-call
log and the notification texts sent, or an uncaught exception / exhausted
budget. -/
inductive DriverOut where
  | ok (fs : FS) (calls : List Path) (notes : List String)
  | exn
  | fuelOut

/-- Lines 154-162: for each selected target folder, honor its first marker,
run `apply_tag(tgt, tgt, tag)`, delete that marker, send a notification. -/
def driverLoop (s3 : S3) (fuel : Nat) :
    FS → List Path → List Path → List String → DriverOut
  | fs, [], calls, notes => .ok fs calls notes
  | fs, tgt :: rest, calls, notes =>
    match fs tgt with
    | none => .exn
    | some es =>
      match globMarkers es with
      | [] => .exn      -- `[...][0]` on an empty glob raises IndexError
      | (mname, mkind) :: _ =>
        match parse_freezefile mname with
        | none => .exn
        | some tag =>
          match applyTagLoop s3 fuel tgt tgt tag fs [tgt] true [] [] calls [] with
          | .ok fs2 calls2 _ st _ _ =>
            match mkind with
            | .dirE => .exn   -- os.remove on a directory raises
            | .fileE _ =>
              match fs2 tgt with
              | none => .exn
              | some es2 =>
                driverLoop s3 fuel (fsSet fs2 tgt (removeEntry es2 mname)) rest
                  calls2 (notes ++ [noteText tgt st])
          | .exn => .exn
          | .fuelOut => .fuelOut

/-- The selected target folders of a pass, as computed by lines 144-152:
each marker's parent directory, sorted by path-string length, minus
candidates beneath an already-selected root. -/
def driverRoots (fs : FS) (fuel : Nat) : List Path :=
  selectRoots [] (sortByLen ((rglobMarkers fs fuel []).map List.dropLast))

/-- One full pass of the `__main__` driver: discover every marker under the
mount root, select the target folders, then process them in order. -/
def driverPass (s3 : S3) (fuel : Nat) (fs : FS) : DriverOut :=
  driverLoop s3 fuel fs (driverRoots fs fuel) [] []

/-- The notification list of a normal driver pass. -/
def DriverOut.notesOf : DriverOut → Option (List String)
  | .ok _ _ notes => some notes
  | _ => none

/-- The named entry of directory `p` after a normal driver pass. -/
def DriverOut.entryOf (w : DriverOut) (p : Path) (n : String) : Option (Option EKind) :=
  match w with
  | .ok fs _ _ => some (entryAt fs p n)
  | _ => none

/-- The per-directory computation actually reachable in `processDir`: a
valid load always conflicts first (the schema forces `rule-at` to be an
object, never equal to the rule-path string), so the entry loop always
starts from the base record. -/
def runDir (s3 : S3) (tags : Tags) (p : Path) (es : Listing) : PState :=
  procEntries s3 tags (.aobj []) (.aobj []) p es ⟨[], true, [], [], [], []⟩

/-- The shape of every record the walk persists. -/
def writtenRecord (aff : List String) (rp : String) (tg : Tags) : JVal :=
  dumpRecord { baseFrozen with affected := aff } rp tg

/-- Well-formed file system: every directory listing has pairwise distinct
entry names (true of a real file system). -/
def wfFS (fs : FS) : Prop :=
  ∀ p es, fs p = some es → (es.map Prod.fst).Nodup

/-- The names of the subdirectories the entry loop pushes: non-hidden
directory entries, in listing order. -/
def visKids (es : Listing) : List String :=
  es.filterMap (fun e =>
    if strStarts e.1 "." then none
    else match e.2 with | .dirE => some e.1 | .fileE _ => none)

/-- No directory of the file system holds a schema-valid record (then the
rule-conflict early return can never fire).  Every record the walk itself
writes is schema-invalid, so this is preserved by the walk. -/
def noValidFS (fs : FS) : Prop :=
  ∀ p es, fs p = some es → (loadFrozen es).2 = false

/-- Directory `D` exists and contains file entries named `f` and `g`. -/
def hasFG (fs : FS) (D : Path) (f g : String) : Prop :=
  ∃ esD cf cg, fs D = some esD ∧
    (f, EKind.fileE cf) ∈ esD ∧ (g, EKind.fileE cg) ∈ esD

/-! ### Concrete scenarios used by the counterexamples -/

/-- A remote tagging service that always succeeds. -/
def s3all : S3 := fun _ => true

/-- A hand-written record that *does* satisfy `CONFIG_SCHEMA` (its
`rule-at` is a JSON object, as the schema requires). -/
def validRec : JVal :=
  .jobj [("rule-at", .aobj []), ("applied-tags", .aobj []),
    ("freezefile-tags", .aobj []), ("affected-files", .aarr [])]

/-- Oracle failing exactly on `/mnt/t/f`. -/
def s3noTF : S3 := fun p => !(p == ["t", "f"])

/-- Target `t` with a failing file `f` and subdirectories `c` (with file
`y`) and `b` (with a schema-valid record): `b` is popped first and its rule
conflict abandons the walk. -/
def c1fs : FS := fsOfList
  [([], [("t", .dirE)]),
   (["t"], [("f", .fileE none), ("c", .dirE), ("b", .dirE)]),
   (["t", "c"], [("y", .fileE none)]),
   (["t", "b"], [(".frozen", .fileE (some validRec))])]

/-- Target `t` with a subdirectory `s` that carries a nested directive
marker and a file `y`. -/
def c2fs : FS := fsOfList
  [([], [("t", .dirE)]),
   (["t"], [("s", .dirE)]),
   (["t", "s"], [(".freeze.k=v", .fileE none), ("y", .fileE none)])]

/-- A fresh single directory `a` with one ordinary file `x`. -/
def c3fs : FS := fsOfList [([], [("a", .dirE)]), (["a"], [("x", .fileE none)])]

/-- The file system after the first `apply_tag` run on `c3fs`. -/
def c3fs2 : FS := fun p =>
  match apply_tag s3all 9 c3fs ["a"] ["a"] [("k", "v")] with
  | .ok fs _ _ _ _ _ => fs p
  | _ => none

/-- Target `t` with subdirectory `d` owning a schema-valid record under a
different rule and also containing its own directive marker and a file
`z`. -/
def c4fs : FS := fsOfList
  [([], [("t", .dirE)]),
   (["t"], [("d", .dirE)]),
   (["t", "d"], [(".freeze.k=v", .fileE none), (".frozen", .fileE (some validRec)),
     ("z", .fileE none)])]

/-- Target `t` with failing file `f`, succeeding file `g`, and a
subdirectory `s` whose schema-valid record triggers the conflict return
after `t` was processed. -/
def c5fs : FS := fsOfList
  [([], [("t", .dirE)]),
   (["t"], [("f", .fileE none), ("g", .fileE none), ("s", .dirE)]),
   (["t", "s"], [(".frozen", .fileE (some validRec))])]

/-- Target `t` without a state record (invalid load) plus a subdirectory
`s` holding a schema-valid record. -/
def c6fs : FS := fsOfList
  [([], [("t", .dirE)]),
   (["t"], [("x", .fileE none), ("s", .dirE)]),
   (["t", "s"], [(".frozen", .fileE (some validRec))])]

/-- Target `t` containing a directive marker, a record file with
unparseable content, and an ordinary file `o`. -/
def c7fs : FS := fsOfList
  [([], [("t", .dirE)]),
   (["t"], [(".freeze.k=v", .fileE none), (".frozen", .fileE none), ("o", .fileE none)])]

/-- A namespace whose directory `a` holds two directive markers at once. -/
def c8fs : FS := fsOfList
  [([], [("a", .dirE)]),
   (["a"], [(".freeze.k=v", .fileE none), (".freeze.k2=v2", .fileE none),
     ("x", .fileE none)])]

/-- The final file system of the walk over `c1fs`. -/
def c1fs2 : FS := fun p =>
  match apply_tag s3noTF 9 c1fs ["t"] ["t"] [("k", "v")] with
  | .ok fs _ _ _ _ _ => fs p
  | _ => none

/-- The file system produced by the nested directive run inside `c2fs`. -/
def c2fsN : FS := fun p =>
  match applyTagLoop s3all 8 ["t", "s"] ["t"] [("k", "v")] c2fs [["t", "s"]]
      true [] [] [] [] with
  | .ok fs _ _ _ _ _ => fs p
  | _ => none

/-- Conflict-free namespace: target `t` with a failing file `f`, a
succeeding file `g`, and no state record anywhere. -/
def c5bfs : FS := fsOfList
  [([], [("t", .dirE)]),
   (["t"], [("f", .fileE none), ("g", .fileE none)])]

/-- The final file system of the walk over `c5bfs`. -/
def c5bfs2 : FS := fun p =>
  match apply_tag s3noTF 9 c5bfs ["t"] ["t"] [("k", "v")] with
  | .ok fs _ _ _ _ _ => fs p
  | _ => none

/-- A namespace whose nested directive marker name lacks the `=` in its
key-value segment. -/
def c10fs : FS := fsOfList
  [([], [("t", .dirE)]),
   (["t"], [("s", .dirE)]),
   (["t", "s"], [(".freeze.kv", .fileE none)])]

/-! ### C1: the rule-conflict early return -/

/-- C1 counterexample: on `c1fs` the call for `/mnt/t/f` fails while `t` is
processed, then popping `b` (schema-valid record, different rule origin)
makes the *whole invocation* return `(True, [], [])`: the accumulated
failure and success flag are discarded and the remaining stack entry `c` is
never processed (no record is ever written at `/mnt/t/c`), contradicting
the claim that only `b`'s branch is abandoned. -/
theorem C1_counterexample :
    validateRecord validRec = true ∧
    s3noTF ["t", "f"] = false ∧
    (apply_tag s3noTF 9 c1fs ["t"] ["t"] [("k", "v")]).callsOf = some [["t", "f"]] ∧
    (apply_tag s3noTF 9 c1fs ["t"] ["t"] [("k", "v")]).plogOf = some [["t"]] ∧
    (apply_tag s3noTF 9 c1fs ["t"] ["t"] [("k", "v")]).recOf ["t", "c"] = some none ∧
    (apply_tag s3noTF 9 c1fs ["t"] ["t"] [("k", "v")]).resOf = some (true, [], []) := by
  decide

/-! ### C3: idempotence of a second run (code bug) -/

/-- C3: on the failing input (`/mnt/a` with one file `x`, all remote calls
succeeding), the first run tags `x` and persists a record, but the record
the program writes fails the program's own schema (`rule-at` is written as
a string while `CONFIG_SCHEMA` requires an object), so the second identical
run loads no usable state and issues the remote tagging call for `x`
again — the claimed zero-call idempotence never happens. -/
theorem C3_second_run_retags :
    (apply_tag s3all 9 c3fs ["a"] ["a"] [("k", "v")]).resOf
        = some (false, [["a", "x"]], []) ∧
    (match recordAt c3fs2 ["a"] with
      | some (.fileE (some j)) => validateRecord j
      | _ => true) = false ∧
    (apply_tag s3all 9 c3fs2 ["a"] ["a"] [("k", "v")]).callsOf
        = some [["a", "x"]] ∧
    (apply_tag s3all 9 c3fs2 ["a"] ["a"] [("k", "v")]).resOf
        = some (false, [["a", "x"]], []) := by
  decide

/-! ### C2: rule origin passed to nested directive runs -/

/-- C2 counterexample: walking `t` reaches the nested marker in subdirectory
`s = /mnt/t/s`; the recursive run does apply the newly parsed tag set and
the marker file is deleted, but the record persisted inside the subtree
carries `rule-at = "/mnt/t"` — the *outer* rule origin — not `"/mnt/t/s"`,
contradicting the claimed `ApplyRule(D, D, parsedTags)`. -/
theorem C2_counterexample :
    (apply_tag s3all 9 c2fs ["t"] ["t"] [("a", "b")]).fieldOf ["t", "s"] "rule-at"
        = some (some (.astr "/mnt/t")) ∧
    pathString ["t", "s"] = "/mnt/t/s" ∧
    ("/mnt/t" : String) ≠ "/mnt/t/s" ∧
    (apply_tag s3all 9 c2fs ["t"] ["t"] [("a", "b")]).fieldOf ["t", "s"] "applied-tags"
        = some (some (.aobj [("k", "v")])) ∧
    (apply_tag s3all 9 c2fs ["t"] ["t"] [("a", "b")]).entryOf ["t", "s"] ".freeze.k=v"
        = some none := by
  decide

/-! ### C4: ownership exclusivity -/

/-- C4 counterexample: `d = /mnt/t/d` holds a schema-valid record whose
rule origin differs from the invoked rule, so its record stays untouched
and no file under `d` is tagged — but `d` also contains a directive marker,
and the walk deletes that marker file, so not every file under `d` is left
untouched as the claim demands. -/
theorem C4_counterexample :
    validateRecord validRec = true ∧
    entryAt c4fs ["t", "d"] ".freeze.k=v" = some (.fileE none) ∧
    (apply_tag s3all 9 c4fs ["t"] ["t"] [("a", "b")]).recOf ["t", "d"]
        = some (some (.fileE (some validRec))) ∧
    (apply_tag s3all 9 c4fs ["t"] ["t"] [("a", "b")]).callsOf = some [] ∧
    (apply_tag s3all 9 c4fs ["t"] ["t"] [("a", "b")]).entryOf ["t", "d"] ".freeze.k=v"
        = some none := by
  decide

/-! ### C5: partial failure isolation -/

/-- C5 counterexample: in directory `t` the call for `f` fails and the call
for `g` succeeds, and the record persisted for `t` correctly lists `g` and
not `f`; but the subsequently popped subdirectory `s` has a schema-valid
record with a different origin, whose early return discards the aggregate,
so the returned `failed` list is empty — it does not contain `f`'s path
exactly once as claimed. -/
theorem C5_counterexample :
    s3noTF ["t", "f"] = false ∧
    s3noTF ["t", "g"] = true ∧
    (apply_tag s3noTF 9 c5fs ["t"] ["t"] [("k", "v")]).callsOf
        = some [["t", "f"], ["t", "g"]] ∧
    (apply_tag s3noTF 9 c5fs ["t"] ["t"] [("k", "v")]).fieldOf ["t"] "affected-files"
        = some (some (.aarr ["g"])) ∧
    (apply_tag s3noTF 9 c5fs ["t"] ["t"] [("k", "v")]).resOf = some (true, [], []) := by
  decide

/-! ### C6: invalid state record forces failure -/

/-- C6 counterexample: the target `t` has no state record, so it is
processed from an empty record (its file `x` is tagged) and the success
flag is set to `False`; but the later pop of subdirectory `s`
(schema-valid record, different origin) returns `(True, [], [])` for the
whole invocation, so the walk's `overall_success` ends up `True` — the
claim's "forced to false" does not survive to the returned result. -/
theorem C6_counterexample :
    recordAt c6fs ["t"] = none ∧
    (apply_tag s3all 9 c6fs ["t"] ["t"] [("k", "v")]).callsOf = some [["t", "x"]] ∧
    (apply_tag s3all 9 c6fs ["t"] ["t"] [("k", "v")]).resOf = some (true, [], []) := by
  decide

/-! ### C7: classification of marker and record files -/

/-- C7 counterexample: directory `t` contains a directive marker and a
state-record file (plus ordinary file `o`).  Since both special names begin
with `'.'`, the hidden-file filter (line 100) skips them before the
classification of lines 109-115 can run: no remote call is attempted for
them (per the claim, `marker_tags = {storage-class: infrequent-access}`
differs from the empty recorded `freezefile-tags`, so a call would be
required), and the persisted state tracks only `o`. -/
theorem C7_counterexample :
    dictEq FREEZEFILE_TAGS [] = false ∧
    (apply_tag s3all 9 c7fs ["t"] ["t"] [("k", "v")]).callsOf = some [["t", "o"]] ∧
    (apply_tag s3all 9 c7fs ["t"] ["t"] [("k", "v")]).fieldOf ["t"] "affected-files"
        = some (some (.aarr ["o"])) := by
  decide

/-! ### C8: multiple markers in one directory -/

/-- C8 counterexample: directory `a` holds two directive markers, so its
parent appears twice among the candidates and the `startswith`-based filter
of lines 148-152 does not remove exact duplicates: `a` is selected as a
root twice in the same pass, both markers are consumed within that single
pass (none is left for a subsequent one), and two notifications are
sent — contradicting "selected at most once per pass, remaining markers
left untouched". -/
theorem C8_counterexample :
    driverRoots c8fs 9 = [["a"], ["a"]] ∧
    (driverPass s3all 9 c8fs).entryOf ["a"] ".freeze.k=v" = some none ∧
    (driverPass s3all 9 c8fs).entryOf ["a"] ".freeze.k2=v2" = some none ∧
    (driverPass s3all 9 c8fs).notesOf = some
      ["Freezing path /mnt/a Failed", "Freezing path /mnt/a Failed"] := by
  decide

/-! ### Helper lemmas: listings and file-system updates -/

theorem fsSet_self (fs : FS) (p : Path) (es : Listing) : fsSet fs p es p = some es := by
  simp [fsSet]

theorem fsSet_other (fs : FS) (p q : Path) (es : Listing) (h : q ≠ p) :
    fsSet fs p es q = fs q := by
  simp [fsSet, h]

theorem findEntry_setEntry_self (es : Listing) (n : String) (k : EKind) :
    findEntry (setEntry es n k) n = some k := by
  induction es with
  | nil => simp [setEntry, findEntry]
  | cons e rest ih =>
    obtain ⟨n2, k2⟩ := e
    by_cases h : n2 = n
    · simp [setEntry, findEntry, h]
    · simp [setEntry, findEntry, h, ih]

theorem findEntry_setEntry_other (es : Listing) (n m : String) (k : EKind)
    (h : m ≠ n) : findEntry (setEntry es n k) m = findEntry es m := by
  induction es with
  | nil => simp [setEntry, findEntry, Ne.symm h]
  | cons e rest ih =>
    obtain ⟨n2, k2⟩ := e
    by_cases h2 : n2 = n
    · subst h2; simp [setEntry, findEntry, Ne.symm h]
    · by_cases h3 : n2 = m <;> simp [setEntry, findEntry, h2, h3, h, ih]

theorem findEntry_removeEntry (es : Listing) (n m : String) (h : m ≠ n) :
    findEntry (removeEntry es n) m = findEntry es m := by
  induction es with
  | nil => rfl
  | cons e rest ih =>
    obtain ⟨n2, k2⟩ := e
    by_cases h2 : n2 = n
    · subst h2
      have hb : (n2 == n2) = true := by simp
      simp [removeEntry, List.filter_cons, hb, findEntry, Ne.symm h] at *
      exact ih
    · have hb : (n2 == n) = false := by simp [h2]
      by_cases h3 : n2 = m
      · subst h3
        simp [removeEntry, List.filter_cons, hb, findEntry]
      · simp [removeEntry, List.filter_cons, hb, findEntry, h3] at *
        exact ih

theorem mem_map_fst_setEntry (es : Listing) (n m : String) (k : EKind) :
    m ∈ (setEntry es n k).map Prod.fst ↔ m = n ∨ m ∈ es.map Prod.fst := by
  induction es with
  | nil => simp [setEntry]
  | cons e rest ih =>
    obtain ⟨n2, k2⟩ := e
    by_cases h2 : n2 = n
    · subst h2; simp [setEntry]
    · simp [setEntry, h2, ih]; tauto

theorem nodup_setEntry (es : Listing) (n : String) (k : EKind)
    (h : (es.map Prod.fst).Nodup) : ((setEntry es n k).map Prod.fst).Nodup := by
  induction es with
  | nil => simp [setEntry]
  | cons e rest ih =>
    obtain ⟨n2, k2⟩ := e
    simp only [List.map_cons, List.nodup_cons] at h
    by_cases h2 : n2 = n
    · subst h2
      simpa [setEntry, List.nodup_cons] using h
    · simp only [setEntry, if_neg h2, List.map_cons, List.nodup_cons]
      refine ⟨?_, ih h.2⟩
      rw [mem_map_fst_setEntry]
      rintro (rfl | hm)
      · exact h2 rfl
      · exact h.1 hm

theorem nodup_removeEntry (es : Listing) (n : String)
    (h : (es.map Prod.fst).Nodup) : ((removeEntry es n).map Prod.fst).Nodup :=
  List.Nodup.sublist (List.Sublist.map Prod.fst (List.filter_sublist es)) h

theorem marker_ne_frozen {n : String} (h : strStarts n FREEZEFILE_PREFIX = true) :
    n ≠ FROZENFILE := by
  intro he; subst he; exact absurd h (by decide)

theorem marker_is_hidden {n : String} (h : strStarts n FREEZEFILE_PREFIX = true) :
    strStarts n "." = true := by
  rw [strStarts, List.isPrefixOf_iff_prefix] at *
  exact List.IsPrefix.trans (by decide) h

/-! ### Helper lemmas: the written record and the state store -/

theorem jGet_written_ruleAt (aff : List String) (rp : String) (tg : Tags) :
    jGet (writtenRecord aff rp tg) "rule-at" = some (.astr rp) := rfl

theorem jGet_written_affected (aff : List String) (rp : String) (tg : Tags) :
    jGet (writtenRecord aff rp tg) "affected-files" = some (.aarr aff) := rfl

theorem validate_written (aff : List String) (rp : String) (tg : Tags) :
    validateRecord (writtenRecord aff rp tg) = false := rfl

theorem loadFrozen_false {es : Listing} {fr : Frozen}
    (h : loadFrozen es = (fr, false)) : fr = baseFrozen := by
  unfold loadFrozen at h
  split at h
  · split at h <;> simp_all
  · simp_all

theorem loadFrozen_true {es : Listing} {fr : Frozen}
    (h : loadFrozen es = (fr, true)) :
    ∃ j, findEntry es FROZENFILE = some (.fileE (some j)) ∧
      validateRecord j = true ∧ fr = frozenOfJ j := by
  unfold loadFrozen at h
  split at h
  · next j heq =>
    split at h
    · next hv => exact ⟨j, heq, hv, by simp_all⟩
    · simp_all
  · simp_all

theorem validate_ruleAt_aobj {j : JVal} (h : validateRecord j = true) :
    ∃ a, (frozenOfJ j).ruleAt = .aobj a := by
  cases j with
  | jstr s => simp [validateRecord] at h
  | jarr l => simp [validateRecord] at h
  | jobj fields =>
    simp only [validateRecord, Bool.and_eq_true] at h
    obtain ⟨⟨⟨h1, _⟩, _⟩, _⟩ := h
    unfold isAObj at h1
    split at h1
    · next a heq => exact ⟨a, by simp [frozenOfJ, heq]⟩
    · simp at h1

theorem writeRecord_some {fs : FS} {p : Path} {es : Listing} {j : JVal} {fs2 : FS}
    (h : writeRecord fs p es j = some fs2) :
    fs2 = fsSet fs p (setEntry es FROZENFILE (.fileE (some j))) := by
  unfold writeRecord at h
  split at h
  · simp at h
  · simp at h; exact h.symm

/-! ### The two reachable outcomes of `processDir` -/

theorem processDir_of_valid {s3 : S3} {r : Path} {tags : Tags} {fs : FS}
    {p : Path} {es : Listing} {fr : Frozen}
    (h : loadFrozen es = (fr, true)) :
    processDir s3 r tags fs p es = .conflict := by
  obtain ⟨j, hfe, hv, hfr⟩ := loadFrozen_true h
  obtain ⟨a, ha⟩ := validate_ruleAt_aobj hv
  rw [← hfr] at ha
  simp [processDir, h, ha]

theorem processDir_of_invalid_went {s3 : S3} {r : Path} {tags : Tags} {fs : FS}
    {p : Path} {es : Listing} {fr : Frozen} {fs2 : FS}
    (h : loadFrozen es = (fr, false))
    (hw : writeRecord fs p es
      (writtenRecord (runDir s3 tags p es).affected (pathString r) tags) = some fs2) :
    processDir s3 r tags fs p es = .went fs2 false (runDir s3 tags p es).processed
      (runDir s3 tags p es).failed (runDir s3 tags p es).calls
      (runDir s3 tags p es).kids := by
  have hb := loadFrozen_false h
  subst hb
  simp only [processDir]
  rw [h, if_neg (by simp)]
  show (match writeRecord fs p es
      (writtenRecord (runDir s3 tags p es).affected (pathString r) tags) with
    | none => DirStep.bad
    | some fs3 => DirStep.went fs3 (false && (runDir s3 tags p es).state)
        (runDir s3 tags p es).processed (runDir s3 tags p es).failed
        (runDir s3 tags p es).calls (runDir s3 tags p es).kids) = _
  rw [hw]
  simp

theorem processDir_of_invalid_bad {s3 : S3} {r : Path} {tags : Tags} {fs : FS}
    {p : Path} {es : Listing} {fr : Frozen}
    (h : loadFrozen es = (fr, false))
    (hw : writeRecord fs p es
      (writtenRecord (runDir s3 tags p es).affected (pathString r) tags) = none) :
    processDir s3 r tags fs p es = .bad := by
  have hb := loadFrozen_false h
  subst hb
  simp only [processDir]
  rw [h, if_neg (by simp)]
  show (match writeRecord fs p es
      (writtenRecord (runDir s3 tags p es).affected (pathString r) tags) with
    | none => DirStep.bad
    | some fs3 => DirStep.went fs3 (false && (runDir s3 tags p es).state)
        (runDir s3 tags p es).processed (runDir s3 tags p es).failed
        (runDir s3 tags p es).calls (runDir s3 tags p es).kids) = _
  rw [hw]

/-! ### Step equations for the walk loop -/

theorem step_done (s3 : S3) (fuel : Nat) (t r : Path) (tags : Tags) (fs : FS)
    (st : Bool) (pr fl calls plog : List Path) :
    applyTagLoop s3 (fuel + 1) t r tags fs [] st pr fl calls plog =
      .ok fs calls plog st pr fl := rfl

theorem step_missing {fs : FS} {path : Path} (s3 : S3) (fuel : Nat) (t r : Path)
    (tags : Tags) (rest : List Path) (st : Bool) (pr fl calls plog : List Path)
    (hfs : fs path = none) :
    applyTagLoop s3 (fuel + 1) t r tags fs (path :: rest) st pr fl calls plog = .exn := by
  simp only [applyTagLoop, hfs]

theorem step_marker {fs : FS} {path t : Path} {es : Listing}
    {mname : String} {mk : EKind} {ms : Listing}
    (s3 : S3) (fuel : Nat) (r : Path) (tags : Tags) (rest : List Path)
    (st : Bool) (pr fl calls plog : List Path)
    (hfs : fs path = some es) (hne : path ≠ t)
    (hg : globMarkers es = (mname, mk) :: ms) :
    applyTagLoop s3 (fuel + 1) t r tags fs (path :: rest) st pr fl calls plog =
      (match parse_freezefile mname with
       | none => .exn
       | some parsed =>
         match applyTagLoop s3 fuel path r parsed fs [path] true [] [] calls plog with
         | .ok fs2 calls2 plog2 st2 pr2 fl2 =>
           (match mk with
            | .dirE => .exn
            | .fileE _ =>
              match fs2 path with
              | none => .exn
              | some es2 =>
                applyTagLoop s3 fuel t r tags
                  (fsSet fs2 path (removeEntry es2 mname)) rest
                  (st && st2) (pr ++ pr2) (fl ++ fl2) calls2 plog2)
         | .exn => .exn
         | .fuelOut => .fuelOut) := by
  cases mk <;> simp only [applyTagLoop, hfs, if_neg hne, hg]

theorem step_load {fs : FS} {path t : Path} {es : Listing}
    (s3 : S3) (fuel : Nat) (r : Path) (tags : Tags) (rest : List Path)
    (st : Bool) (pr fl calls plog : List Path)
    (hfs : fs path = some es) (hskip : path = t ∨ globMarkers es = []) :
    applyTagLoop s3 (fuel + 1) t r tags fs (path :: rest) st pr fl calls plog =
      (match processDir s3 r tags fs path es with
       | .conflict => .ok fs calls plog true [] []
       | .bad => .exn
       | .went fs2 dok dpr dfl dcalls kids =>
         applyTagLoop s3 fuel t r tags fs2 (kids.reverse ++ rest)
           (st && dok) (pr ++ dpr) (fl ++ dfl) (calls ++ dcalls) (plog ++ [path])) := by
  by_cases hpt : path = t
  · subst hpt; simp only [applyTagLoop, hfs, if_pos rfl, ite_true]
  · rcases hskip with h | h
    · exact absurd h hpt
    · simp only [applyTagLoop, hfs, if_neg hpt, h]

theorem step_conflict {fs : FS} {path t : Path} {es : Listing} {fr : Frozen}
    (s3 : S3) (fuel : Nat) (r : Path) (tags : Tags) (rest : List Path)
    (st : Bool) (pr fl calls plog : List Path)
    (hfs : fs path = some es) (hskip : path = t ∨ globMarkers es = [])
    (hld : loadFrozen es = (fr, true)) :
    applyTagLoop s3 (fuel + 1) t r tags fs (path :: rest) st pr fl calls plog =
      .ok fs calls plog true [] [] := by
  rw [step_load s3 fuel r tags rest st pr fl calls plog hfs hskip,
    processDir_of_valid hld]

theorem step_process {fs : FS} {path t : Path} {es : Listing} {fr : Frozen} {fs2 : FS}
    (s3 : S3) (fuel : Nat) (r : Path) (tags : Tags) (rest : List Path)
    (st : Bool) (pr fl calls plog : List Path)
    (hfs : fs path = some es) (hskip : path = t ∨ globMarkers es = [])
    (hld : loadFrozen es = (fr, false))
    (hw : writeRecord fs path es
      (writtenRecord (runDir s3 tags path es).affected (pathString r) tags) = some fs2) :
    applyTagLoop s3 (fuel + 1) t r tags fs (path :: rest) st pr fl calls plog =
      applyTagLoop s3 fuel t r tags fs2
        ((runDir s3 tags path es).kids.reverse ++ rest) false
        (pr ++ (runDir s3 tags path es).processed)
        (fl ++ (runDir s3 tags path es).failed)
        (calls ++ (runDir s3 tags path es).calls) (plog ++ [path]) := by
  rw [step_load s3 fuel r tags rest st pr fl calls plog hfs hskip,
    processDir_of_invalid_went hld hw]
  simp

/-! ### Structure of the per-directory entry loop -/

theorem visKids_cons_hidden {n : String} {k : EKind} {es : Listing}
    (h : strStarts n "." = true) : visKids ((n, k) :: es) = visKids es := by
  simp [visKids, List.filterMap_cons, h]

theorem visKids_cons_dir {n : String} {es : Listing}
    (h : strStarts n "." = false) : visKids ((n, .dirE) :: es) = n :: visKids es := by
  simp [visKids, List.filterMap_cons, h]

theorem visKids_cons_file {n : String} {c : Option JVal} {es : Listing}
    (h : strStarts n "." = false) : visKids ((n, .fileE c) :: es) = visKids es := by
  simp [visKids, List.filterMap_cons, h]

theorem procEntries_shape (s3 : S3) (tags : Tags) (fA fF : JAtom) (p : Path) :
    ∀ (es : Listing) (ps : PState),
    ∃ dAff dPr dFl dCalls,
      (procEntries s3 tags fA fF p es ps).affected = ps.affected ++ dAff ∧
      (procEntries s3 tags fA fF p es ps).processed = ps.processed ++ dPr ∧
      (procEntries s3 tags fA fF p es ps).failed = ps.failed ++ dFl ∧
      (procEntries s3 tags fA fF p es ps).calls = ps.calls ++ dCalls ∧
      (procEntries s3 tags fA fF p es ps).kids
        = ps.kids ++ (visKids es).map (fun n => p ++ [n]) ∧
      dAff.Sublist (es.map Prod.fst) ∧
      (∀ q ∈ dCalls, ∃ n, q = p ++ [n] ∧ strStarts n "." = false ∧
        ∃ k, (n, EKind.fileE k) ∈ es) ∧
      (∀ q ∈ dFl, q ∈ dCalls ∧ s3 q = false) ∧
      (∀ q ∈ dPr, q ∈ dCalls ∧ s3 q = true) := by
  intro es
  induction es with
  | nil =>
    intro ps
    exact ⟨[], [], [], [], by simp [procEntries, visKids]⟩
  | cons e es ih =>
    intro ps
    obtain ⟨n, k⟩ := e
    by_cases hh : strStarts n "." = true
    · obtain ⟨dAff, dPr, dFl, dCalls, h1, h2, h3, h4, h5, h6, h7, h8, h9⟩ := ih ps
      refine ⟨dAff, dPr, dFl, dCalls, ?_⟩
      simp only [procEntries, procEntry, if_pos hh, visKids_cons_hidden hh]
      refine ⟨h1, h2, h3, h4, h5, h6.cons _, ?_, h8, h9⟩
      intro q hq
      obtain ⟨n2, hn2, hh2, k2, hk2⟩ := h7 q hq
      exact ⟨n2, hn2, hh2, k2, List.mem_cons_of_mem _ hk2⟩
    · rw [Bool.not_eq_true] at hh
      cases k with
      | dirE =>
        obtain ⟨dAff, dPr, dFl, dCalls, h1, h2, h3, h4, h5, h6, h7, h8, h9⟩ :=
          ih { ps with kids := ps.kids ++ [p ++ [n]] }
        refine ⟨dAff, dPr, dFl, dCalls, ?_⟩
        simp only [procEntries, procEntry, hh, Bool.false_eq_true, if_false,
          visKids_cons_dir hh]
        refine ⟨h1, h2, h3, h4, by simp [h5], h6.cons _, ?_, h8, h9⟩
        intro q hq
        obtain ⟨n2, hn2, hh2, k2, hk2⟩ := h7 q hq
        exact ⟨n2, hn2, hh2, k2, List.mem_cons_of_mem _ hk2⟩
      | fileE c =>
        simp only [procEntries, procEntry, hh, Bool.false_eq_true, if_false,
          visKids_cons_file hh]
        by_cases hskip : (tagsMatchA
            (if (strStarts n FREEZEFILE_PREFIX || n == FROZENFILE) then FREEZEFILE_TAGS else tags)
            (if (strStarts n FREEZEFILE_PREFIX || n == FROZENFILE) then fF else fA)
            && ps.affected.contains n) = true
        · rw [if_pos hskip]
          obtain ⟨dAff, dPr, dFl, dCalls, h1, h2, h3, h4, h5, h6, h7, h8, h9⟩ := ih ps
          refine ⟨dAff, dPr, dFl, dCalls, h1, h2, h3, h4, h5, h6.cons _, ?_, h8, h9⟩
          intro q hq
          obtain ⟨n2, hn2, hh2, k2, hk2⟩ := h7 q hq
          exact ⟨n2, hn2, hh2, k2, List.mem_cons_of_mem _ hk2⟩
        · rw [if_neg hskip]
          by_cases hs3 : s3 (p ++ [n]) = true
          · rw [if_pos hs3]
            obtain ⟨dAff, dPr, dFl, dCalls, h1, h2, h3, h4, h5, h6, h7, h8, h9⟩ :=
              ih { ps with
                calls := ps.calls ++ [p ++ [n]]
                processed := ps.processed ++ [p ++ [n]]
                affected := if dictEq (if (strStarts n FREEZEFILE_PREFIX || n == FROZENFILE)
                    then FREEZEFILE_TAGS else tags) tags
                  then ps.affected ++ [n] else ps.affected }
            by_cases hde : dictEq (if (strStarts n FREEZEFILE_PREFIX || n == FROZENFILE)
                then FREEZEFILE_TAGS else tags) tags = true
            · rw [if_pos hde] at h1
              refine ⟨n :: dAff, (p ++ [n]) :: dPr, dFl, (p ++ [n]) :: dCalls, ?_⟩
              simp only [if_pos hde] at *
              refine ⟨by simpa using h1, by simpa using h2, h3, by simpa using h4,
                by simpa using h5, h6.cons₂ _, ?_, ?_, ?_⟩
              · intro q hq
                rcases List.mem_cons.1 hq with rfl | hq2
                · exact ⟨n, rfl, hh, c, List.mem_cons_self _ _⟩
                · obtain ⟨n2, hn2, hh2, k2, hk2⟩ := h7 q hq2
                  exact ⟨n2, hn2, hh2, k2, List.mem_cons_of_mem _ hk2⟩
              · intro q hq
                obtain ⟨hq2, hq3⟩ := h8 q hq
                exact ⟨List.mem_cons_of_mem _ hq2, hq3⟩
              · intro q hq
                rcases List.mem_cons.1 hq with rfl | hq2
                · exact ⟨List.mem_cons_self _ _, hs3⟩
                · obtain ⟨hq2, hq3⟩ := h9 q hq2
                  exact ⟨List.mem_cons_of_mem _ hq2, hq3⟩
            · rw [if_neg hde] at h1
              refine ⟨dAff, (p ++ [n]) :: dPr, dFl, (p ++ [n]) :: dCalls, ?_⟩
              simp only [if_neg hde] at *
              refine ⟨h1, by simpa using h2, h3, by simpa using h4,
                by simpa using h5, h6.cons _, ?_, ?_, ?_⟩
              · intro q hq
                rcases List.mem_cons.1 hq with rfl | hq2
                · exact ⟨n, rfl, hh, c, List.mem_cons_self _ _⟩
                · obtain ⟨n2, hn2, hh2, k2, hk2⟩ := h7 q hq2
                  exact ⟨n2, hn2, hh2, k2, List.mem_cons_of_mem _ hk2⟩
              · intro q hq
                obtain ⟨hq2, hq3⟩ := h8 q hq
                exact ⟨List.mem_cons_of_mem _ hq2, hq3⟩
              · intro q hq
                rcases List.mem_cons.1 hq with rfl | hq2
                · exact ⟨List.mem_cons_self _ _, hs3⟩
                · obtain ⟨hq2, hq3⟩ := h9 q hq2
                  exact ⟨List.mem_cons_of_mem _ hq2, hq3⟩
          · rw [Bool.not_eq_true] at hs3
            simp only [hs3, Bool.false_eq_true, if_false]
            obtain ⟨dAff, dPr, dFl, dCalls, h1, h2, h3, h4, h5, h6, h7, h8, h9⟩ :=
              ih { ps with
                calls := ps.calls ++ [p ++ [n]]
                state := false
                failed := ps.failed ++ [p ++ [n]] }
            refine ⟨dAff, dPr, (p ++ [n]) :: dFl, (p ++ [n]) :: dCalls, ?_⟩
            refine ⟨h1, h2, by simpa using h3, by simpa using h4,
              by simpa using h5, h6.cons _, ?_, ?_, ?_⟩
            · intro q hq
              rcases List.mem_cons.1 hq with rfl | hq2
              · exact ⟨n, rfl, hh, c, List.mem_cons_self _ _⟩
              · obtain ⟨n2, hn2, hh2, k2, hk2⟩ := h7 q hq2
                exact ⟨n2, hn2, hh2, k2, List.mem_cons_of_mem _ hk2⟩
            · intro q hq
              rcases List.mem_cons.1 hq with rfl | hq2
              · exact ⟨List.mem_cons_self _ _, hs3⟩
              · obtain ⟨hq2, hq3⟩ := h8 q hq2
                exact ⟨List.mem_cons_of_mem _ hq2, hq3⟩
            · intro q hq
              obtain ⟨hq2, hq3⟩ := h9 q hq
              exact ⟨List.mem_cons_of_mem _ hq2, hq3⟩

theorem recordAt_fsSet_self (fs : FS) (p : Path) (es : Listing) :
    recordAt (fsSet fs p es) p = findEntry es FROZENFILE := by
  simp [recordAt, entryAt, fsSet]

theorem recordAt_fsSet_other (fs : FS) (p q : Path) (es : Listing) (h : q ≠ p) :
    recordAt (fsSet fs p es) q = recordAt fs q := by
  simp [recordAt, entryAt, fsSet, h]

theorem wfFS_fsSet {fs : FS} {p : Path} {es : Listing}
    (hwf : wfFS fs) (hes : (es.map Prod.fst).Nodup) : wfFS (fsSet fs p es) := by
  intro q es2 hq
  by_cases h : q = p
  · subst h
    rw [fsSet_self] at hq
    cases hq
    exact hes
  · rw [fsSet_other _ _ _ _ h] at hq
    exact hwf q es2 hq

theorem globMarkers_head_marker {es : Listing} {mname : String} {mk : EKind}
    {ms : Listing} (h : globMarkers es = (mname, mk) :: ms) :
    strStarts mname FREEZEFILE_PREFIX = true := by
  have hm : (mname, mk) ∈ globMarkers es := by
    rw [h]
    exact List.mem_cons_self _ _
  simpa using List.of_mem_filter hm

theorem nonhidden_not_special {n : String} (h : strStarts n "." = false) :
    (strStarts n FREEZEFILE_PREFIX || n == FROZENFILE) = false := by
  cases hp : strStarts n FREEZEFILE_PREFIX with
  | true => exact absurd (marker_is_hidden hp) (by simp [h])
  | false =>
    cases he : (n == FROZENFILE) with
    | true =>
      rw [beq_iff_eq] at he
      subst he
      exact absurd h (by decide)
    | false => rfl

theorem snoc_ne_of_ne {p : Path} {a b : String} (h : a ≠ b) :
    p ++ [a] ≠ p ++ [b] := by
  intro hc
  exact h (by simpa using hc)

theorem procEntry_fields (s3 : S3) (tags : Tags) (fA fF : JAtom) (p : Path)
    (ps : PState) (e : String × EKind) :
    ((procEntry s3 tags fA fF p ps e).affected = ps.affected ∨
      (procEntry s3 tags fA fF p ps e).affected = ps.affected ++ [e.1]) ∧
    ((procEntry s3 tags fA fF p ps e).failed = ps.failed ∨
      (procEntry s3 tags fA fF p ps e).failed = ps.failed ++ [p ++ [e.1]]) ∧
    ((procEntry s3 tags fA fF p ps e).calls = ps.calls ∨
      (procEntry s3 tags fA fF p ps e).calls = ps.calls ++ [p ++ [e.1]]) := by
  obtain ⟨n2, k2⟩ := e
  unfold procEntry
  by_cases hh : strStarts n2 "." = true
  · simp [hh]
  · rw [Bool.not_eq_true] at hh
    cases k2 with
    | dirE => simp [hh]
    | fileE c =>
      simp only [hh, Bool.false_eq_true, if_false]
      repeat' split <;> try simp

theorem procEntries_file_out (s3 : S3) (tags : Tags) (fA fF : JAtom) (p : Path) :
    ∀ (es : Listing) (ps : PState) (n : String) (c : Option JVal),
    (es.map Prod.fst).Nodup → (n, EKind.fileE c) ∈ es → strStarts n "." = false →
    n ∉ ps.affected →
    ((p ++ [n]) ∈ (procEntries s3 tags fA fF p es ps).calls) ∧
    (s3 (p ++ [n]) = false →
      (procEntries s3 tags fA fF p es ps).failed.count (p ++ [n])
        = ps.failed.count (p ++ [n]) + 1 ∧
      n ∉ (procEntries s3 tags fA fF p es ps).affected) ∧
    (s3 (p ++ [n]) = true → dictEq tags tags = true →
      n ∈ (procEntries s3 tags fA fF p es ps).affected) := by
  intro es
  induction es with
  | nil =>
    intro ps n c _ hmem
    simp at hmem
  | cons e es ih =>
    intro ps n c hnd hmem hh hna
    obtain ⟨n2, k2⟩ := e
    simp only [List.map_cons, List.nodup_cons] at hnd
    rcases List.mem_cons.1 hmem with heq | hmem2
    · -- the head entry is (n, fileE c): it is handled right now
      cases heq
      have hns := nonhidden_not_special hh
      have hcont : ps.affected.contains n = false := by
        cases hc : ps.affected.contains n
        · rfl
        · exact absurd (by simpa using hc) hna
      simp only [procEntries, procEntry, hh, Bool.false_eq_true, if_false, hns,
        hcont, Bool.and_false]
      rcases hs3 : s3 (p ++ [n]) with _ | _
      · -- remote call fails: failure recorded once, never added to affected
        simp only [Bool.false_eq_true, if_false]
        obtain ⟨dAff, dPr, dFl, dCalls, h1, h2, h3, h4, h5, h6, h7, h8, h9⟩ :=
          procEntries_shape s3 tags fA fF p es
            { ps with
              calls := ps.calls ++ [p ++ [n]],
              state := false,
              failed := ps.failed ++ [p ++ [n]] }
        refine ⟨?_, fun _ => ⟨?_, ?_⟩, fun hs _ => by simp at hs⟩
        · rw [h4]; simp
        · rw [h3]
          have hz : dFl.count (p ++ [n]) = 0 := by
            rw [List.count_eq_zero]
            intro hq
            obtain ⟨hq2, _⟩ := h8 _ hq
            obtain ⟨n3, hn3, _, k3, hk3⟩ := h7 _ hq2
            have : n3 = n := by simpa using hn3.symm
            subst this
            exact hnd.1 (List.mem_map_of_mem Prod.fst hk3)
          simp [List.count_append, hz, List.count_singleton]
        · rw [h1]
          simp only [List.mem_append]
          rintro (hc | hc)
          · exact hna (by simpa using hc)
          · exact hnd.1 (h6.subset hc)
      · -- remote call succeeds: with equal tag dicts the name is recorded
        simp only [if_true]
        refine ⟨?_, fun hs => by simp at hs, fun _ hde => ?_⟩
        · obtain ⟨dAff, dPr, dFl, dCalls, h1, h2, h3, h4, h5, h6, h7, h8, h9⟩ :=
            procEntries_shape s3 tags fA fF p es
              { ps with
                calls := ps.calls ++ [p ++ [n]],
                processed := ps.processed ++ [p ++ [n]],
                affected := (if dictEq tags tags = true then ps.affected ++ [n]
                  else ps.affected) }
          rw [h4]; simp
        · obtain ⟨dAff, dPr, dFl, dCalls, h1, h2, h3, h4, h5, h6, h7, h8, h9⟩ :=
            procEntries_shape s3 tags fA fF p es
              { ps with
                calls := ps.calls ++ [p ++ [n]],
                processed := ps.processed ++ [p ++ [n]],
                affected := (if dictEq tags tags = true then ps.affected ++ [n]
                  else ps.affected) }
          rw [h1]
          simp [hde]
    · -- the head entry is a different name; recurse
      have hn2 : n2 ≠ n := by
        intro hc
        subst hc
        exact hnd.1 (List.mem_map_of_mem Prod.fst hmem2)
      obtain ⟨ha, hf, hc⟩ := procEntry_fields s3 tags fA fF p ps (n2, k2)
      have hna2 : n ∉ (procEntry s3 tags fA fF p ps (n2, k2)).affected := by
        rcases ha with h | h <;> rw [h]
        · exact hna
        · simp only [List.mem_append]
          rintro (hx | hx)
          · exact hna hx
          · simp at hx
            exact hn2 hx.symm
      have hcnt : (procEntry s3 tags fA fF p ps (n2, k2)).failed.count (p ++ [n])
          = ps.failed.count (p ++ [n]) := by
        rcases hf with h | h <;> rw [h]
        simp [List.count_append, List.count_singleton, snoc_ne_of_ne hn2]
      obtain ⟨ih1, ih2, ih3⟩ :=
        ih (procEntry s3 tags fA fF p ps (n2, k2)) n c hnd.2 hmem2 hh hna2
      refine ⟨?_, fun hs => ?_, fun hs hde => ?_⟩
      · simpa only [procEntries] using ih1
      · obtain ⟨hcount, hmemb⟩ := ih2 hs
        constructor
        · simpa only [procEntries, hcnt] using hcount
        · simpa only [procEntries] using hmemb
      · simpa only [procEntries] using ih3 hs hde

theorem step_write_fail {fs : FS} {path t : Path} {es : Listing} {fr : Frozen}
    (s3 : S3) (fuel : Nat) (r : Path) (tags : Tags) (rest : List Path)
    (st : Bool) (pr fl calls plog : List Path)
    (hfs : fs path = some es) (hskip : path = t ∨ globMarkers es = [])
    (hld : loadFrozen es = (fr, false))
    (hw : writeRecord fs path es
      (writtenRecord (runDir s3 tags path es).affected (pathString r) tags) = none) :
    applyTagLoop s3 (fuel + 1) t r tags fs (path :: rest) st pr fl calls plog = .exn := by
  rw [step_load s3 fuel r tags rest st pr fl calls plog hfs hskip,
    processDir_of_invalid_bad hld hw]


/-! ### More listing and path lemmas -/

theorem mem_setEntry_of_ne {es : Listing} {n : String} {k0 : EKind} (m : String)
    (k : EKind) (hmem : (n, k0) ∈ es) (hne : n ≠ m) : (n, k0) ∈ setEntry es m k := by
  induction es with
  | nil => cases hmem
  | cons e rest ih =>
    obtain ⟨n2, k2⟩ := e
    by_cases h2 : n2 = m
    · subst h2
      simp only [setEntry, if_pos rfl]
      rcases List.mem_cons.1 hmem with heq | hmem2
      · cases heq
        exact absurd rfl hne
      · exact List.mem_cons_of_mem _ hmem2
    · simp only [setEntry, if_neg h2]
      rcases List.mem_cons.1 hmem with heq | hmem2
      · cases heq
        exact List.mem_cons_self _ _
      · exact List.mem_cons_of_mem _ (ih hmem2)

theorem mem_removeEntry_of_ne {es : Listing} {n : String} {k0 : EKind} (m : String)
    (hmem : (n, k0) ∈ es) (hne : n ≠ m) : (n, k0) ∈ removeEntry es m := by
  refine List.mem_filter.2 ⟨hmem, ?_⟩
  simp [hne]

theorem snoc_inj {d d2 : Path} {n n2 : String} (h : d ++ [n] = d2 ++ [n2]) :
    d = d2 ∧ n = n2 := by
  have h1 := congrArg List.dropLast h
  have h2 := congrArg List.getLast? h
  constructor
  · simpa using h1
  · simpa using h2

theorem prefix_snoc {l p : Path} {a : String} (h : l <+: p ++ [a]) :
    l <+: p ∨ l = p ++ [a] := by
  obtain ⟨s, hs⟩ := h
  cases s using List.reverseRecOn with
  | nil => right; simpa using hs
  | append_singleton s2 b =>
    left
    rw [← List.append_assoc] at hs
    obtain ⟨h1, _⟩ := snoc_inj hs
    exact ⟨s2, h1⟩

theorem prefix_same_len_eq {l1 l2 p : Path} (h1 : l1 <+: p) (h2 : l2 <+: p)
    (hl : l1.length = l2.length) : l1 = l2 := by
  rw [List.prefix_iff_eq_take] at h1 h2
  rw [h1, h2, hl]

/-- A list with pairwise-distinct members that agree whenever the predicate
holds has at most one member satisfying it. -/
theorem countP_le_one_of_unique {l : List Path} (P : Path → Bool)
    (hu : ∀ a ∈ l, ∀ b ∈ l, P a = true → P b = true → a = b) (hnd : l.Nodup) :
    l.countP P ≤ 1 := by
  induction l with
  | nil => simp
  | cons x xs ih =>
    rw [List.countP_cons]
    rcases List.nodup_cons.1 hnd with ⟨hx, hnd2⟩
    by_cases hp : P x = true
    · have hz : xs.countP P = 0 := by
        rw [List.countP_eq_zero]
        intro a ha hpa
        exact absurd (hu a (List.mem_cons_of_mem _ ha) x (List.mem_cons_self _ _)
          hpa hp ▸ ha) hx
      simp [hz, hp]
    · have hxf : P x = false := by
        cases hP : P x
        · rfl
        · exact absurd hP hp
      have := ih (fun a ha b hb => hu a (List.mem_cons_of_mem _ ha)
        b (List.mem_cons_of_mem _ hb)) hnd2
      simpa [hxf] using this

/-! ### Preservation of load outcomes -/

theorem loadFrozen_congr {es1 es2 : Listing}
    (h : findEntry es1 FROZENFILE = findEntry es2 FROZENFILE) :
    loadFrozen es1 = loadFrozen es2 := by
  unfold loadFrozen
  rw [h]

theorem noValid_write {fs : FS} {p : Path} {es : Listing}
    (hnv : noValidFS fs) (aff : List String) (rp : String) (tg : Tags) :
    noValidFS (fsSet fs p (setEntry es FROZENFILE
      (.fileE (some (writtenRecord aff rp tg))))) := by
  intro q es2 hq
  by_cases h : q = p
  · subst h
    rw [fsSet_self] at hq
    cases hq
    unfold loadFrozen
    rw [findEntry_setEntry_self]
    simp [validate_written]
  · rw [fsSet_other _ _ _ _ h] at hq
    exact hnv q es2 hq

theorem noValid_remove {fs : FS} {p : Path} {es : Listing} {mname : String}
    (hnv : noValidFS fs) (hfs : fs p = some es) (hne : mname ≠ FROZENFILE) :
    noValidFS (fsSet fs p (removeEntry es mname)) := by
  intro q es2 hq
  by_cases h : q = p
  · subst h
    rw [fsSet_self] at hq
    cases hq
    rw [loadFrozen_congr (findEntry_removeEntry es mname FROZENFILE (Ne.symm hne))]
    exact hnv q es hfs
  · rw [fsSet_other _ _ _ _ h] at hq
    exact hnv q es2 hq

/-! ### Unique keys and dict equality -/

/-- A tag dict with pairwise-distinct keys (always true of a Python dict). -/
def uniqKeys (t : Tags) : Prop := (t.map Prod.fst).Nodup

theorem dLookup_eq_some_self {t : Tags} (hu : uniqKeys t) :
    ∀ kv ∈ t, dLookup t kv.1 = some kv.2 := by
  induction t with
  | nil => intro kv h; cases h
  | cons x xs ih =>
    intro kv hkv
    obtain ⟨hx, hnd⟩ := List.nodup_cons.1 hu
    rcases List.mem_cons.1 hkv with heq | hmem
    · subst heq
      simp [dLookup]
    · obtain ⟨k2, v2⟩ := x
      have hkne : k2 ≠ kv.1 := by
        intro hc
        subst hc
        exact hx (by simpa using List.mem_map_of_mem Prod.fst hmem)
      simp only [dLookup, if_neg hkne]
      exact ih hnd kv hmem

theorem dictEq_refl {t : Tags} (hu : uniqKeys t) : dictEq t t = true := by
  unfold dictEq
  rw [Bool.and_self]
  rw [List.all_eq_true]
  intro kv hkv
  simpa using dLookup_eq_some_self hu kv hkv

theorem map_fst_dictInsert (d : Tags) (k v : String) :
    (dictInsert d k v).map Prod.fst
      = if k ∈ d.map Prod.fst then d.map Prod.fst else d.map Prod.fst ++ [k] := by
  induction d with
  | nil => simp [dictInsert]
  | cons x xs ih =>
    obtain ⟨k2, v2⟩ := x
    by_cases h2 : k2 = k
    · subst h2
      simp [dictInsert]
    · simp only [dictInsert, if_neg h2, List.map_cons, ih]
      by_cases hk : k ∈ xs.map Prod.fst
      · simp [hk, Ne.symm h2]
      · simp [hk, Ne.symm h2]

theorem uniqKeys_dictInsert (d : Tags) (k v : String) (hu : uniqKeys d) :
    uniqKeys (dictInsert d k v) := by
  unfold uniqKeys at *
  rw [map_fst_dictInsert]
  by_cases hk : k ∈ d.map Prod.fst
  · simpa [hk] using hu
  · rw [if_neg hk]
    refine List.Nodup.append hu (List.nodup_singleton k) ?_
    intro a ha hb
    rw [List.mem_singleton] at hb
    subst hb
    exact hk ha

theorem parseSegments_uniq {segs : List (List Char)} :
    ∀ {acc tg : Tags}, uniqKeys acc → parseSegments acc segs = some tg → uniqKeys tg := by
  induction segs with
  | nil =>
    intro acc tg hu h
    cases h
    exact hu
  | cons seg rest ih =>
    intro acc tg hu h
    unfold parseSegments at h
    split at h
    · exact ih (uniqKeys_dictInsert _ _ _ hu) h
    · cases h

theorem parse_uniq {m : String} {tg : Tags} (h : parse_freezefile m = some tg) :
    uniqKeys tg :=
  parseSegments_uniq (by simp [uniqKeys]) h

/-! ### The remote-call log only grows -/

theorem calls_prefix (s3 : S3) : ∀ (fuel : Nat) (t r : Path) (tags : Tags) (fs : FS)
    (stack : List Path) (st : Bool) (pr fl calls plog : List Path)
    (fs2 : FS) (calls2 plog2 : List Path) (st2 : Bool) (pr2 fl2 : List Path),
    applyTagLoop s3 fuel t r tags fs stack st pr fl calls plog
      = .ok fs2 calls2 plog2 st2 pr2 fl2 →
    ∃ dc, calls2 = calls ++ dc := by
  intro fuel
  induction fuel with
  | zero =>
    intro t r tags fs stack st pr fl calls plog fs2 calls2 plog2 st2 pr2 fl2 h
    exact absurd h (by simp [applyTagLoop])
  | succ fuel ih =>
    intro t r tags fs stack st pr fl calls plog fs2 calls2 plog2 st2 pr2 fl2 h
    cases stack with
    | nil =>
      rw [step_done] at h
      cases h
      exact ⟨[], by simp⟩
    | cons path rest =>
      cases hfs : fs path with
      | none =>
        rw [step_missing s3 fuel t r tags rest st pr fl calls plog hfs] at h
        exact WalkOut.noConfusion h
      | some es =>
        cases hmk : (if path = t then [] else globMarkers es) with
        | nil =>
          have hskip : path = t ∨ globMarkers es = [] := by
            by_cases hpt : path = t
            · exact Or.inl hpt
            · rw [if_neg hpt] at hmk
              exact Or.inr hmk
          rcases hld2 : loadFrozen es with ⟨fr, b⟩
          cases b with
          | true =>
            rw [step_conflict s3 fuel r tags rest st pr fl calls plog hfs hskip hld2] at h
            cases h
            exact ⟨[], by simp⟩
          | false =>
            cases hw : writeRecord fs path es
                (writtenRecord (runDir s3 tags path es).affected (pathString r) tags) with
            | none =>
              rw [step_write_fail s3 fuel r tags rest st pr fl calls plog hfs hskip
                hld2 hw] at h
              exact WalkOut.noConfusion h
            | some fsB =>
              rw [step_process s3 fuel r tags rest st pr fl calls plog hfs hskip
                hld2 hw] at h
              obtain ⟨dc, hdc⟩ := ih t r tags fsB _ false _ _ _ _ _ _ _ _ _ _ h
              exact ⟨(runDir s3 tags path es).calls ++ dc,
                by rw [hdc, List.append_assoc]⟩
        | cons e ms =>
          obtain ⟨mname, mkind⟩ := e
          have hne : path ≠ t := by
            intro hpt
            rw [if_pos hpt] at hmk
            cases hmk
          have hg : globMarkers es = (mname, mkind) :: ms := by
            rwa [if_neg hne] at hmk
          rw [step_marker s3 fuel r tags rest st pr fl calls plog hfs hne hg] at h
          cases hparse : parse_freezefile mname with
          | none =>
            simp only [hparse] at h
            exact WalkOut.noConfusion h
          | some parsed =>
            simp only [hparse] at h
            cases hrec2 : applyTagLoop s3 fuel path r parsed fs [path] true [] [] calls plog with
            | exn =>
              simp only [hrec2] at h
              exact WalkOut.noConfusion h
            | fuelOut =>
              simp only [hrec2] at h
              exact WalkOut.noConfusion h
            | ok fsN callsN plogN stN prN flN =>
              simp only [hrec2] at h
              cases mkind with
              | dirE =>
                simp only [] at h
                exact WalkOut.noConfusion h
              | fileE c =>
                cases hfsN : fsN path with
                | none =>
                  simp only [hfsN] at h
                  exact WalkOut.noConfusion h
                | some esN =>
                  simp only [hfsN] at h
                  obtain ⟨dc1, hdc1⟩ := ih path r parsed fs _ true _ _ _ _ _ _ _ _ _ _ hrec2
                  obtain ⟨dc2, hdc2⟩ := ih t r tags _ rest _ _ _ _ _ _ _ _ _ _ _ h
                  exact ⟨dc1 ++ dc2, by rw [hdc2, hdc1, List.append_assoc]⟩

/-! ### A false success flag survives until a conflict return discards it -/

theorem state_false_sticky (s3 : S3) : ∀ (fuel : Nat) (t r : Path) (tags : Tags)
    (fs : FS) (stack : List Path) (pr fl calls plog : List Path)
    (fs2 : FS) (calls2 plog2 : List Path) (st2 : Bool) (pr2 fl2 : List Path),
    applyTagLoop s3 fuel t r tags fs stack false pr fl calls plog
      = .ok fs2 calls2 plog2 st2 pr2 fl2 →
    st2 = true → pr2 = [] ∧ fl2 = [] := by
  intro fuel
  induction fuel with
  | zero =>
    intro t r tags fs stack pr fl calls plog fs2 calls2 plog2 st2 pr2 fl2 h
    exact absurd h (by simp [applyTagLoop])
  | succ fuel ih =>
    intro t r tags fs stack pr fl calls plog fs2 calls2 plog2 st2 pr2 fl2 h
    cases stack with
    | nil =>
      rw [step_done] at h
      cases h
      intro ht
      exact Bool.noConfusion ht
    | cons path rest =>
      cases hfs : fs path with
      | none =>
        rw [step_missing s3 fuel t r tags rest false pr fl calls plog hfs] at h
        exact WalkOut.noConfusion h
      | some es =>
        cases hmk : (if path = t then [] else globMarkers es) with
        | nil =>
          have hskip : path = t ∨ globMarkers es = [] := by
            by_cases hpt : path = t
            · exact Or.inl hpt
            · rw [if_neg hpt] at hmk
              exact Or.inr hmk
          rcases hld2 : loadFrozen es with ⟨fr, b⟩
          cases b with
          | true =>
            rw [step_conflict s3 fuel r tags rest false pr fl calls plog hfs hskip
              hld2] at h
            cases h
            exact fun _ => ⟨rfl, rfl⟩
          | false =>
            cases hw : writeRecord fs path es
                (writtenRecord (runDir s3 tags path es).affected (pathString r) tags) with
            | none =>
              rw [step_write_fail s3 fuel r tags rest false pr fl calls plog hfs hskip
                hld2 hw] at h
              exact WalkOut.noConfusion h
            | some fsB =>
              rw [step_process s3 fuel r tags rest false pr fl calls plog hfs hskip
                hld2 hw] at h
              exact ih t r tags fsB _ _ _ _ _ _ _ _ _ _ _ h
        | cons e ms =>
          obtain ⟨mname, mkind⟩ := e
          have hne : path ≠ t := by
            intro hpt
            rw [if_pos hpt] at hmk
            cases hmk
          have hg : globMarkers es = (mname, mkind) :: ms := by
            rwa [if_neg hne] at hmk
          rw [step_marker s3 fuel r tags rest false pr fl calls plog hfs hne hg] at h
          cases hparse : parse_freezefile mname with
          | none =>
            simp only [hparse] at h
            exact WalkOut.noConfusion h
          | some parsed =>
            simp only [hparse] at h
            cases hrec2 : applyTagLoop s3 fuel path r parsed fs [path] true [] [] calls plog with
            | exn =>
              simp only [hrec2] at h
              exact WalkOut.noConfusion h
            | fuelOut =>
              simp only [hrec2] at h
              exact WalkOut.noConfusion h
            | ok fsN callsN plogN stN prN flN =>
              simp only [hrec2] at h
              cases mkind with
              | dirE =>
                simp only [] at h
                exact WalkOut.noConfusion h
              | fileE c =>
                cases hfsN : fsN path with
                | none =>
                  simp only [hfsN] at h
                  exact WalkOut.noConfusion h
                | some esN =>
                  simp only [hfsN, Bool.false_and] at h
                  exact ih t r tags _ rest _ _ _ _ _ _ _ _ _ _ h

theorem visKids_sublist (es : Listing) : (visKids es).Sublist (es.map Prod.fst) := by
  induction es with
  | nil => simp [visKids]
  | cons e rest ih =>
    obtain ⟨n, k⟩ := e
    by_cases hh : strStarts n "." = true
    · rw [visKids_cons_hidden hh]
      exact ih.cons _
    · rw [Bool.not_eq_true] at hh
      cases k with
      | dirE =>
        rw [visKids_cons_dir hh]
        exact ih.cons₂ _
      | fileE c =>
        rw [visKids_cons_file hh]
        exact ih.cons _

theorem not_snoc_prefix (p : Path) (n : String) : ¬ (p ++ [n]) <+: p := by
  intro h
  have := h.length_le
  simp at this

/-- Kids pushed for a popped directory, as paths. -/
theorem runDir_kids (s3 : S3) (tags : Tags) (p : Path) (es : Listing) :
    (runDir s3 tags p es).kids = (visKids es).map (fun n => p ++ [n]) := by
  obtain ⟨dAff, dPr, dFl, dCalls, h1, h2, h3, h4, h5, h6, h7, h8, h9⟩ :=
    procEntries_shape s3 tags (.aobj []) (.aobj []) p es ⟨[], true, [], [], [], []⟩
  simpa [runDir] using h5

/-! ### The walk never creates a schema-valid record -/

theorem walk_noValid (s3 : S3) : ∀ (fuel : Nat) (t r : Path) (tags : Tags)
    (fs : FS) (stack : List Path) (st : Bool) (pr fl calls plog : List Path)
    (fs2 : FS) (calls2 plog2 : List Path) (st2 : Bool) (pr2 fl2 : List Path),
    applyTagLoop s3 fuel t r tags fs stack st pr fl calls plog
      = .ok fs2 calls2 plog2 st2 pr2 fl2 →
    noValidFS fs → noValidFS fs2 := by
  intro fuel
  induction fuel with
  | zero =>
    intro t r tags fs stack st pr fl calls plog fs2 calls2 plog2 st2 pr2 fl2 h hnv
    exact absurd h (by simp [applyTagLoop])
  | succ fuel ih =>
    intro t r tags fs stack st pr fl calls plog fs2 calls2 plog2 st2 pr2 fl2 h hnv
    cases stack with
    | nil =>
      rw [step_done] at h
      cases h
      exact hnv
    | cons path rest =>
      cases hfs : fs path with
      | none =>
        rw [step_missing s3 fuel t r tags rest st pr fl calls plog hfs] at h
        exact WalkOut.noConfusion h
      | some es =>
        cases hmk : (if path = t then [] else globMarkers es) with
        | nil =>
          have hskip : path = t ∨ globMarkers es = [] := by
            by_cases hpt : path = t
            · exact Or.inl hpt
            · rw [if_neg hpt] at hmk
              exact Or.inr hmk
          rcases hld2 : loadFrozen es with ⟨fr, b⟩
          cases b with
          | true =>
            have := hnv path es hfs
            rw [hld2] at this
            exact Bool.noConfusion this
          | false =>
            cases hw : writeRecord fs path es
                (writtenRecord (runDir s3 tags path es).affected (pathString r) tags) with
            | none =>
              rw [step_write_fail s3 fuel r tags rest st pr fl calls plog hfs hskip
                hld2 hw] at h
              exact WalkOut.noConfusion h
            | some fsB =>
              rw [step_process s3 fuel r tags rest st pr fl calls plog hfs hskip
                hld2 hw] at h
              refine ih t r tags fsB _ false _ _ _ _ _ _ _ _ _ _ h ?_
              rw [writeRecord_some hw]
              exact noValid_write hnv _ _ _
        | cons e ms =>
          obtain ⟨mname, mkind⟩ := e
          have hne : path ≠ t := by
            intro hpt
            rw [if_pos hpt] at hmk
            cases hmk
          have hg : globMarkers es = (mname, mkind) :: ms := by
            rwa [if_neg hne] at hmk
          rw [step_marker s3 fuel r tags rest st pr fl calls plog hfs hne hg] at h
          cases hparse : parse_freezefile mname with
          | none =>
            simp only [hparse] at h
            exact WalkOut.noConfusion h
          | some parsed =>
            simp only [hparse] at h
            cases hrec2 : applyTagLoop s3 fuel path r parsed fs [path] true [] [] calls plog with
            | exn =>
              simp only [hrec2] at h
              exact WalkOut.noConfusion h
            | fuelOut =>
              simp only [hrec2] at h
              exact WalkOut.noConfusion h
            | ok fsN callsN plogN stN prN flN =>
              simp only [hrec2] at h
              cases mkind with
              | dirE =>
                simp only [] at h
                exact WalkOut.noConfusion h
              | fileE c =>
                cases hfsN : fsN path with
                | none =>
                  simp only [hfsN] at h
                  exact WalkOut.noConfusion h
                | some esN =>
                  simp only [hfsN] at h
                  have hnvN : noValidFS fsN :=
                    ih path r parsed fs [path] true [] [] calls plog _ _ _ _ _ _ hrec2 hnv
                  refine ih t r tags _ rest _ _ _ _ _ _ _ _ _ _ _ h ?_
                  exact noValid_remove hnvN hfsN
                    (marker_ne_frozen (globMarkers_head_marker hg))

/-! ### A walk whose stack holds no ancestor of `D` never touches `D` -/

theorem walk_avoid (s3 : S3) (D : Path) : ∀ (fuel : Nat) (t r : Path) (tags : Tags)
    (fs : FS) (stack : List Path) (st : Bool) (pr fl calls plog : List Path)
    (fs2 : FS) (calls2 plog2 : List Path) (st2 : Bool) (pr2 fl2 : List Path),
    applyTagLoop s3 fuel t r tags fs stack st pr fl calls plog
      = .ok fs2 calls2 plog2 st2 pr2 fl2 →
    noValidFS fs →
    (∀ q ∈ stack, ¬ q <+: D) →
    fs2 D = fs D ∧
    plog2.count D = plog.count D ∧
    (∀ n, fl2.count (D ++ [n]) = fl.count (D ++ [n])) := by
  intro fuel
  induction fuel with
  | zero =>
    intro t r tags fs stack st pr fl calls plog fs2 calls2 plog2 st2 pr2 fl2 h hnv hstk
    exact absurd h (by simp [applyTagLoop])
  | succ fuel ih =>
    intro t r tags fs stack st pr fl calls plog fs2 calls2 plog2 st2 pr2 fl2 h hnv hstk
    cases stack with
    | nil =>
      rw [step_done] at h
      cases h
      exact ⟨rfl, rfl, fun n => rfl⟩
    | cons path rest =>
      have hpD : path ≠ D := by
        intro hpd
        subst hpd
        exact hstk path (List.mem_cons_self _ _) (List.prefix_refl path)
      have hnpre : ¬ path <+: D := hstk path (List.mem_cons_self _ _)
      cases hfs : fs path with
      | none =>
        rw [step_missing s3 fuel t r tags rest st pr fl calls plog hfs] at h
        exact WalkOut.noConfusion h
      | some es =>
        cases hmk : (if path = t then [] else globMarkers es) with
        | nil =>
          have hskip : path = t ∨ globMarkers es = [] := by
            by_cases hpt : path = t
            · exact Or.inl hpt
            · rw [if_neg hpt] at hmk
              exact Or.inr hmk
          rcases hld2 : loadFrozen es with ⟨fr, b⟩
          cases b with
          | true =>
            have := hnv path es hfs
            rw [hld2] at this
            exact Bool.noConfusion this
          | false =>
            cases hw : writeRecord fs path es
                (writtenRecord (runDir s3 tags path es).affected (pathString r) tags) with
            | none =>
              rw [step_write_fail s3 fuel r tags rest st pr fl calls plog hfs hskip
                hld2 hw] at h
              exact WalkOut.noConfusion h
            | some fsB =>
              rw [step_process s3 fuel r tags rest st pr fl calls plog hfs hskip
                hld2 hw] at h
              have hfsB := writeRecord_some hw
              have hnvB : noValidFS fsB := by
                rw [hfsB]
                exact noValid_write hnv _ _ _
              have hstk2 : ∀ q ∈ (runDir s3 tags path es).kids.reverse ++ rest,
                  ¬ q <+: D := by
                intro q hq
                rcases List.mem_append.1 hq with hq | hq
                · rw [List.mem_reverse, runDir_kids] at hq
                  obtain ⟨n, _, rfl⟩ := List.mem_map.1 hq
                  intro hpre
                  exact hnpre (List.IsPrefix.trans (List.prefix_append path [n]) hpre)
                · exact hstk q (List.mem_cons_of_mem _ hq)
              obtain ⟨ihrec, ihplog, ihfl⟩ :=
                ih t r tags fsB _ false _ _ _ _ _ _ _ _ _ _ h hnvB hstk2
              refine ⟨?_, ?_, ?_⟩
              · rw [ihrec, hfsB, fsSet_other _ _ _ _ (Ne.symm hpD)]
              · rw [ihplog, List.count_append,
                  List.count_eq_zero.2 (show D ∉ [path] by simp [Ne.symm hpD])]
                exact Nat.add_zero _
              · intro n
                rw [ihfl n, List.count_append]
                have hz : (runDir s3 tags path es).failed.count (D ++ [n]) = 0 := by
                  rw [List.count_eq_zero]
                  intro hq
                  obtain ⟨dAff, dPr, dFl, dCalls, h1, h2, h3, h4, h5, h6, h7, h8, h9⟩ :=
                    procEntries_shape s3 tags (.aobj []) (.aobj []) path es
                      ⟨[], true, [], [], [], []⟩
                  have h3b : (runDir s3 tags path es).failed = dFl := by
                    simpa [runDir] using h3
                  rw [h3b] at hq
                  obtain ⟨hq2, _⟩ := h8 _ hq
                  obtain ⟨n2, hn2, _, _⟩ := h7 _ hq2
                  obtain ⟨hpp, _⟩ := snoc_inj hn2.symm
                  exact hpD hpp
                rw [hz]
                exact Nat.add_zero _
        | cons e ms =>
          obtain ⟨mname, mkind⟩ := e
          have hne : path ≠ t := by
            intro hpt
            rw [if_pos hpt] at hmk
            cases hmk
          have hg : globMarkers es = (mname, mkind) :: ms := by
            rwa [if_neg hne] at hmk
          rw [step_marker s3 fuel r tags rest st pr fl calls plog hfs hne hg] at h
          cases hparse : parse_freezefile mname with
          | none =>
            simp only [hparse] at h
            exact WalkOut.noConfusion h
          | some parsed =>
            simp only [hparse] at h
            cases hrec2 : applyTagLoop s3 fuel path r parsed fs [path] true [] [] calls plog with
            | exn =>
              simp only [hrec2] at h
              exact WalkOut.noConfusion h
            | fuelOut =>
              simp only [hrec2] at h
              exact WalkOut.noConfusion h
            | ok fsN callsN plogN stN prN flN =>
              simp only [hrec2] at h
              cases mkind with
              | dirE =>
                simp only [] at h
                exact WalkOut.noConfusion h
              | fileE c =>
                cases hfsN : fsN path with
                | none =>
                  simp only [hfsN] at h
                  exact WalkOut.noConfusion h
                | some esN =>
                  simp only [hfsN] at h
                  obtain ⟨ihrecN, ihplogN, ihflN⟩ :=
                    ih path r parsed fs [path] true [] [] calls plog _ _ _ _ _ _ hrec2 hnv
                      (by
                        intro q hq
                        rw [List.mem_singleton] at hq
                        subst hq
                        exact hnpre)
                  have hnvN : noValidFS fsN :=
                    walk_noValid s3 fuel path r parsed fs [path] true [] [] calls plog
                      _ _ _ _ _ _ hrec2 hnv
                  have hnvMid : noValidFS (fsSet fsN path (removeEntry esN mname)) :=
                    noValid_remove hnvN hfsN
                      (marker_ne_frozen (globMarkers_head_marker hg))
                  obtain ⟨ihrec2, ihplog2, ihfl2⟩ :=
                    ih t r tags _ rest _ _ _ _ _ _ _ _ _ _ _ h hnvMid
                      (fun q hq => hstk q (List.mem_cons_of_mem _ hq))
                  refine ⟨?_, ?_, ?_⟩
                  · rw [ihrec2, fsSet_other _ _ _ _ (Ne.symm hpD), ihrecN]
                  · rw [ihplog2, ihplogN]
                  · intro n
                    rw [ihfl2 n, List.count_append, ihflN n]
                    simp

/-! ### Preservation of a pair of file entries at `D` -/

theorem recordAt_congr {fs1 fs2 : FS} (D : Path) (h : fs2 D = fs1 D) :
    recordAt fs2 D = recordAt fs1 D := by
  unfold recordAt entryAt
  rw [h]

theorem nonhidden_ne_frozen {n : String} (h : strStarts n "." = false) :
    n ≠ FROZENFILE := by
  intro hc
  subst hc
  exact absurd h (by decide)

theorem hasFG_write {fs : FS} {D : Path} {f g : String} {p : Path} {es : Listing}
    (hFG : hasFG fs D f g) (hf : strStarts f "." = false)
    (hg : strStarts g "." = false) (hfs : fs p = some es) (k : EKind) :
    hasFG (fsSet fs p (setEntry es FROZENFILE k)) D f g := by
  obtain ⟨esD, cf, cg, hD, hmf, hmg⟩ := hFG
  by_cases hp : D = p
  · subst hp
    rw [hD] at hfs
    injection hfs with hes
    subst hes
    refine ⟨setEntry esD FROZENFILE k, cf, cg, fsSet_self _ _ _, ?_, ?_⟩
    · exact mem_setEntry_of_ne _ _ hmf (nonhidden_ne_frozen hf)
    · exact mem_setEntry_of_ne _ _ hmg (nonhidden_ne_frozen hg)
  · exact ⟨esD, cf, cg, by rw [fsSet_other _ _ _ _ hp]; exact hD, hmf, hmg⟩

theorem hasFG_remove {fs : FS} {D : Path} {f g : String} {p : Path} {es : Listing}
    {mname : String} (hFG : hasFG fs D f g) (hf : strStarts f "." = false)
    (hg : strStarts g "." = false) (hfs : fs p = some es)
    (hm : strStarts mname "." = true) :
    hasFG (fsSet fs p (removeEntry es mname)) D f g := by
  obtain ⟨esD, cf, cg, hD, hmf, hmg⟩ := hFG
  have hfm : f ≠ mname := by
    intro hc
    subst hc
    rw [hf] at hm
    cases hm
  have hgm : g ≠ mname := by
    intro hc
    subst hc
    rw [hg] at hm
    cases hm
  by_cases hp : D = p
  · subst hp
    rw [hD] at hfs
    injection hfs with hes
    subst hes
    exact ⟨removeEntry esD mname, cf, cg, fsSet_self _ _ _,
      mem_removeEntry_of_ne _ hmf hfm, mem_removeEntry_of_ne _ hmg hgm⟩
  · exact ⟨esD, cf, cg, by rw [fsSet_other _ _ _ _ hp]; exact hD, hmf, hmg⟩

theorem walk_hasFG (s3 : S3) (D : Path) (f g : String)
    (hf : strStarts f "." = false) (hg : strStarts g "." = false) :
    ∀ (fuel : Nat) (t r : Path) (tags : Tags)
    (fs : FS) (stack : List Path) (st : Bool) (pr fl calls plog : List Path)
    (fs2 : FS) (calls2 plog2 : List Path) (st2 : Bool) (pr2 fl2 : List Path),
    applyTagLoop s3 fuel t r tags fs stack st pr fl calls plog
      = .ok fs2 calls2 plog2 st2 pr2 fl2 →
    hasFG fs D f g → hasFG fs2 D f g := by
  intro fuel
  induction fuel with
  | zero =>
    intro t r tags fs stack st pr fl calls plog fs2 calls2 plog2 st2 pr2 fl2 h hFG
    exact absurd h (by simp [applyTagLoop])
  | succ fuel ih =>
    intro t r tags fs stack st pr fl calls plog fs2 calls2 plog2 st2 pr2 fl2 h hFG
    cases stack with
    | nil =>
      rw [step_done] at h
      cases h
      exact hFG
    | cons path rest =>
      cases hfs : fs path with
      | none =>
        rw [step_missing s3 fuel t r tags rest st pr fl calls plog hfs] at h
        exact WalkOut.noConfusion h
      | some es =>
        cases hmk : (if path = t then [] else globMarkers es) with
        | nil =>
          have hskip : path = t ∨ globMarkers es = [] := by
            by_cases hpt : path = t
            · exact Or.inl hpt
            · rw [if_neg hpt] at hmk
              exact Or.inr hmk
          rcases hld2 : loadFrozen es with ⟨fr, b⟩
          cases b with
          | true =>
            rw [step_conflict s3 fuel r tags rest st pr fl calls plog hfs hskip hld2] at h
            cases h
            exact hFG
          | false =>
            cases hw : writeRecord fs path es
                (writtenRecord (runDir s3 tags path es).affected (pathString r) tags) with
            | none =>
              rw [step_write_fail s3 fuel r tags rest st pr fl calls plog hfs hskip
                hld2 hw] at h
              exact WalkOut.noConfusion h
            | some fsB =>
              rw [step_process s3 fuel r tags rest st pr fl calls plog hfs hskip
                hld2 hw] at h
              refine ih t r tags fsB _ false _ _ _ _ _ _ _ _ _ _ h ?_
              rw [writeRecord_some hw]
              exact hasFG_write hFG hf hg hfs _
        | cons e ms =>
          obtain ⟨mname, mkind⟩ := e
          have hne : path ≠ t := by
            intro hpt
            rw [if_pos hpt] at hmk
            cases hmk
          have hg2 : globMarkers es = (mname, mkind) :: ms := by
            rwa [if_neg hne] at hmk
          rw [step_marker s3 fuel r tags rest st pr fl calls plog hfs hne hg2] at h
          cases hparse : parse_freezefile mname with
          | none =>
            simp only [hparse] at h
            exact WalkOut.noConfusion h
          | some parsed =>
            simp only [hparse] at h
            cases hrec2 : applyTagLoop s3 fuel path r parsed fs [path] true [] [] calls plog with
            | exn =>
              simp only [hrec2] at h
              exact WalkOut.noConfusion h
            | fuelOut =>
              simp only [hrec2] at h
              exact WalkOut.noConfusion h
            | ok fsN callsN plogN stN prN flN =>
              simp only [hrec2] at h
              cases mkind with
              | dirE =>
                simp only [] at h
                exact WalkOut.noConfusion h
              | fileE c =>
                cases hfsN : fsN path with
                | none =>
                  simp only [hfsN] at h
                  exact WalkOut.noConfusion h
                | some esN =>
                  simp only [hfsN] at h
                  have hFGN : hasFG fsN D f g :=
                    ih path r parsed fs [path] true [] [] calls plog _ _ _ _ _ _ hrec2 hFG
                  refine ih t r tags _ rest _ _ _ _ _ _ _ _ _ _ _ h ?_
                  exact hasFG_remove hFGN hf hg hfsN
                    (marker_is_hidden (globMarkers_head_marker hg2))

/-! ### The subtree of a conflicting directory is never touched -/

theorem walk_subtree_frame (s3 : S3) (D : Path) : ∀ (fuel : Nat) (t r : Path)
    (tags : Tags) (fs : FS) (stack : List Path) (st : Bool)
    (pr fl calls plog : List Path) (fs2 : FS) (calls2 plog2 : List Path)
    (st2 : Bool) (pr2 fl2 : List Path),
    applyTagLoop s3 fuel t r tags fs stack st pr fl calls plog
      = .ok fs2 calls2 plog2 st2 pr2 fl2 →
    (∃ esD, fs D = some esD ∧ (loadFrozen esD).2 = true ∧ globMarkers esD = []) →
    (∀ q ∈ stack, ¬ (D <+: q ∧ q ≠ D)) →
    (∀ q, D <+: q → fs2 q = fs q) ∧
    (∀ c ∈ calls2, c ∈ calls ∨ ¬ (D <+: c ∧ c ≠ D)) := by
  intro fuel
  induction fuel with
  | zero =>
    intro t r tags fs stack st pr fl calls plog fs2 calls2 plog2 st2 pr2 fl2 h hD hstk
    exact absurd h (by simp [applyTagLoop])
  | succ fuel ih =>
    intro t r tags fs stack st pr fl calls plog fs2 calls2 plog2 st2 pr2 fl2 h hD hstk
    cases stack with
    | nil =>
      rw [step_done] at h
      cases h
      exact ⟨fun q _ => rfl, fun c hc => Or.inl hc⟩
    | cons path rest =>
      cases hfs : fs path with
      | none =>
        rw [step_missing s3 fuel t r tags rest st pr fl calls plog hfs] at h
        exact WalkOut.noConfusion h
      | some es =>
        obtain ⟨esD, hfsD, hvD, hgD⟩ := hD
        cases hmk : (if path = t then [] else globMarkers es) with
        | nil =>
          have hskip : path = t ∨ globMarkers es = [] := by
            by_cases hpt : path = t
            · exact Or.inl hpt
            · rw [if_neg hpt] at hmk
              exact Or.inr hmk
          rcases hld2 : loadFrozen es with ⟨fr, b⟩
          cases b with
          | true =>
            rw [step_conflict s3 fuel r tags rest st pr fl calls plog hfs hskip hld2] at h
            cases h
            exact ⟨fun q _ => rfl, fun c hc => Or.inl hc⟩
          | false =>
            have hpD : path ≠ D := by
              intro hpd
              subst hpd
              rw [hfs] at hfsD
              cases hfsD
              rw [hld2] at hvD
              exact Bool.noConfusion hvD
            have hnpre : ¬ D <+: path := by
              intro hpre
              exact hstk path (List.mem_cons_self _ _) ⟨hpre, hpD⟩
            cases hw : writeRecord fs path es
                (writtenRecord (runDir s3 tags path es).affected (pathString r) tags) with
            | none =>
              rw [step_write_fail s3 fuel r tags rest st pr fl calls plog hfs hskip
                hld2 hw] at h
              exact WalkOut.noConfusion h
            | some fsB =>
              rw [step_process s3 fuel r tags rest st pr fl calls plog hfs hskip
                hld2 hw] at h
              have hfsB := writeRecord_some hw
              have hsub : ∀ q, D <+: q → fsB q = fs q := by
                intro q hq
                rw [hfsB]
                refine fsSet_other _ _ _ _ ?_
                intro hqp
                subst hqp
                exact hnpre hq
              have hDB : ∃ esD2, fsB D = some esD2 ∧ (loadFrozen esD2).2 = true ∧
                  globMarkers esD2 = [] := by
                refine ⟨esD, ?_, hvD, hgD⟩
                rw [hsub D (List.prefix_refl D)]
                exact hfsD
              have hstk2 : ∀ q ∈ (runDir s3 tags path es).kids.reverse ++ rest,
                  ¬ (D <+: q ∧ q ≠ D) := by
                intro q hq
                rcases List.mem_append.1 hq with hq | hq
                · rw [List.mem_reverse] at hq
                  obtain ⟨dAff, dPr, dFl, dCalls, h1, h2, h3, h4, h5, h6, h7, h8, h9⟩ :=
                    procEntries_shape s3 tags (.aobj []) (.aobj []) path es
                      ⟨[], true, [], [], [], []⟩
                  have h5b : (runDir s3 tags path es).kids
                      = (visKids es).map (fun n => path ++ [n]) := by
                    simpa [runDir] using h5
                  rw [h5b] at hq
                  obtain ⟨n, _, rfl⟩ := List.mem_map.1 hq
                  rintro ⟨hpre, hne2⟩
                  rcases prefix_snoc hpre with hpre2 | hpre2
                  · exact hnpre hpre2
                  · exact hne2 hpre2.symm
                · exact hstk q (List.mem_cons_of_mem _ hq)
              obtain ⟨ihsub, ihcalls⟩ :=
                ih t r tags fsB _ false _ _ _ _ _ _ _ _ _ _ h hDB hstk2
              refine ⟨fun q hq => by rw [ihsub q hq, hsub q hq], ?_⟩
              intro c hc
              rcases ihcalls c hc with hc2 | hc2
              · rcases List.mem_append.1 hc2 with hc3 | hc3
                · exact Or.inl hc3
                · obtain ⟨dAff, dPr, dFl, dCalls, h1, h2, h3, h4, h5, h6, h7, h8, h9⟩ :=
                    procEntries_shape s3 tags (.aobj []) (.aobj []) path es
                      ⟨[], true, [], [], [], []⟩
                  have h4b : (runDir s3 tags path es).calls = dCalls := by
                    simpa [runDir] using h4
                  rw [h4b] at hc3
                  obtain ⟨n, rfl, _, _⟩ := h7 c hc3
                  refine Or.inr ?_
                  rintro ⟨hpre, hne2⟩
                  rcases prefix_snoc hpre with hpre2 | hpre2
                  · exact hnpre hpre2
                  · exact hne2 hpre2.symm
              · exact Or.inr hc2
        | cons e ms =>
          obtain ⟨mname, mkind⟩ := e
          have hne : path ≠ t := by
            intro hpt
            rw [if_pos hpt] at hmk
            cases hmk
          have hg : globMarkers es = (mname, mkind) :: ms := by
            rwa [if_neg hne] at hmk
          have hpD : path ≠ D := by
            intro hpd
            subst hpd
            rw [hfs] at hfsD
            cases hfsD
            rw [hg] at hgD
            cases hgD
          have hnpre : ¬ D <+: path := by
            intro hpre
            exact hstk path (List.mem_cons_self _ _) ⟨hpre, hpD⟩
          rw [step_marker s3 fuel r tags rest st pr fl calls plog hfs hne hg] at h
          cases hparse : parse_freezefile mname with
          | none =>
            simp only [hparse] at h
            exact WalkOut.noConfusion h
          | some parsed =>
            simp only [hparse] at h
            cases hrec2 : applyTagLoop s3 fuel path r parsed fs [path] true [] [] calls plog with
            | exn =>
              simp only [hrec2] at h
              exact WalkOut.noConfusion h
            | fuelOut =>
              simp only [hrec2] at h
              exact WalkOut.noConfusion h
            | ok fsN callsN plogN stN prN flN =>
              simp only [hrec2] at h
              cases mkind with
              | dirE =>
                simp only [] at h
                exact WalkOut.noConfusion h
              | fileE c =>
                cases hfsN : fsN path with
                | none =>
                  simp only [hfsN] at h
                  exact WalkOut.noConfusion h
                | some esN =>
                  simp only [hfsN] at h
                  obtain ⟨ihsubN, ihcallsN⟩ :=
                    ih path r parsed fs [path] true [] [] calls plog _ _ _ _ _ _ hrec2
                      ⟨esD, hfsD, hvD, hgD⟩
                      (by
                        intro q hq
                        rw [List.mem_singleton] at hq
                        subst hq
                        rintro ⟨hpre, hne2⟩
                        exact hnpre hpre)
                  have hsubMid : ∀ q, D <+: q →
                      fsSet fsN path (removeEntry esN mname) q = fs q := by
                    intro q hq
                    rw [fsSet_other, ihsubN q hq]
                    intro hqp
                    subst hqp
                    exact hnpre hq
                  have hDMid : ∃ esD2,
                      fsSet fsN path (removeEntry esN mname) D = some esD2 ∧
                      (loadFrozen esD2).2 = true ∧ globMarkers esD2 = [] := by
                    refine ⟨esD, ?_, hvD, hgD⟩
                    rw [hsubMid D (List.prefix_refl D)]
                    exact hfsD
                  obtain ⟨ihsub2, ihcalls2⟩ :=
                    ih t r tags _ rest _ _ _ _ _ _ _ _ _ _ _ h hDMid
                      (fun q hq => hstk q (List.mem_cons_of_mem _ hq))
                  refine ⟨fun q hq => by rw [ihsub2 q hq, hsubMid q hq], ?_⟩
                  intro c2 hc2
                  rcases ihcalls2 c2 hc2 with hc3 | hc3
                  · exact ihcallsN c2 hc3
                  · exact Or.inr hc3

/-! ### Global shape of a walk: well-formedness, logs, written records -/

theorem walk_shape (s3 : S3) : ∀ (fuel : Nat) (t r : Path) (tags : Tags) (fs : FS)
    (stack : List Path) (st : Bool) (pr fl calls plog : List Path)
    (fs2 : FS) (calls2 plog2 : List Path) (st2 : Bool) (pr2 fl2 : List Path),
    applyTagLoop s3 fuel t r tags fs stack st pr fl calls plog
      = .ok fs2 calls2 plog2 st2 pr2 fl2 →
    wfFS fs →
    wfFS fs2 ∧
    (∃ dc, calls2 = calls ++ dc ∧
      ∀ q ∈ dc, ∃ d n, q = d ++ [n] ∧ strStarts n "." = false) ∧
    (∃ dp, plog2 = plog ++ dp) ∧
    (∀ p, recordAt fs2 p ≠ recordAt fs p →
      p ∈ plog2 ∧ ∃ aff tg, aff.Nodup ∧
        recordAt fs2 p = some (.fileE (some (writtenRecord aff (pathString r) tg)))) := by
  intro fuel
  induction fuel with
  | zero =>
    intro t r tags fs stack st pr fl calls plog fs2 calls2 plog2 st2 pr2 fl2 h hwf
    exact absurd h (by simp [applyTagLoop])
  | succ fuel ih =>
    intro t r tags fs stack st pr fl calls plog fs2 calls2 plog2 st2 pr2 fl2 h hwf
    cases stack with
    | nil =>
      rw [step_done] at h
      cases h
      exact ⟨hwf, ⟨[], by simp⟩, ⟨[], by simp⟩, fun p hp => absurd rfl hp⟩
    | cons path rest =>
      cases hfs : fs path with
      | none =>
        rw [step_missing s3 fuel t r tags rest st pr fl calls plog hfs] at h
        cases h
      | some es =>
        cases hmk : (if path = t then [] else globMarkers es) with
        | nil =>
          have hskip : path = t ∨ globMarkers es = [] := by
            by_cases hpt : path = t
            · exact Or.inl hpt
            · rw [if_neg hpt] at hmk
              exact Or.inr hmk
          rcases hld2 : loadFrozen es with ⟨fr, b⟩
          cases b with
          | true =>
            rw [step_conflict s3 fuel r tags rest st pr fl calls plog hfs hskip hld2] at h
            cases h
            exact ⟨hwf, ⟨[], by simp⟩, ⟨[], by simp⟩, fun p hp => absurd rfl hp⟩
          | false =>
            cases hw : writeRecord fs path es
                (writtenRecord (runDir s3 tags path es).affected (pathString r) tags) with
            | none =>
              rw [step_write_fail s3 fuel r tags rest st pr fl calls plog hfs hskip
                hld2 hw] at h
              cases h
            | some fsB =>
              rw [step_process s3 fuel r tags rest st pr fl calls plog hfs hskip
                hld2 hw] at h
              have hfsB := writeRecord_some hw
              have hnd : (es.map Prod.fst).Nodup := hwf path es hfs
              have hwfB : wfFS fsB := by
                rw [hfsB]
                exact wfFS_fsSet hwf (nodup_setEntry es FROZENFILE _ hnd)
              obtain ⟨hwf2, ⟨dc, hdc, hdcp⟩, ⟨dp, hdp⟩, hrec⟩ :=
                ih t r tags fsB _ false _ _ _ _ _ _ _ _ _ _ h hwfB
              obtain ⟨dAff, dPr, dFl, dCalls, h1, h2, h3, h4, h5, h6, h7, h8, h9⟩ :=
                procEntries_shape s3 tags (.aobj []) (.aobj []) path es
                  ⟨[], true, [], [], [], []⟩
              refine ⟨hwf2, ⟨(runDir s3 tags path es).calls ++ dc,
                by rw [hdc, List.append_assoc], ?_⟩,
                ⟨[path] ++ dp, by rw [hdp, List.append_assoc]⟩, ?_⟩
              · intro q hq
                rcases List.mem_append.1 hq with hq | hq
                · have h4b : (runDir s3 tags path es).calls = dCalls := by
                    simpa [runDir] using h4
                  rw [h4b] at hq
                  obtain ⟨n, hn, hnh, _⟩ := h7 q hq
                  exact ⟨path, n, hn, hnh⟩
                · exact hdcp q hq
              · intro p hp
                by_cases hmid : recordAt fs2 p = recordAt fsB p
                · rw [hmid] at hp ⊢
                  by_cases hpp : p = path
                  · subst hpp
                    refine ⟨by rw [hdp]; simp,
                      (runDir s3 tags p es).affected, tags, ?_, ?_⟩
                    · have h1b : (runDir s3 tags p es).affected = dAff := by
                        simpa [runDir] using h1
                      rw [h1b]
                      exact List.Nodup.sublist h6 hnd
                    · rw [hfsB, recordAt_fsSet_self, findEntry_setEntry_self]
                  · exfalso
                    rw [hfsB, recordAt_fsSet_other _ _ _ _ hpp] at hp
                    exact hp rfl
                · exact hrec p hmid
        | cons e ms =>
          obtain ⟨mname, mkind⟩ := e
          have hne : path ≠ t := by
            intro hpt
            rw [if_pos hpt] at hmk
            cases hmk
          have hg : globMarkers es = (mname, mkind) :: ms := by
            rwa [if_neg hne] at hmk
          rw [step_marker s3 fuel r tags rest st pr fl calls plog hfs hne hg] at h
          cases hparse : parse_freezefile mname with
          | none =>
            simp only [hparse] at h
            exact WalkOut.noConfusion h
          | some parsed =>
            simp only [hparse] at h
            cases hrec2 : applyTagLoop s3 fuel path r parsed fs [path] true [] [] calls plog with
            | exn =>
              simp only [hrec2] at h
              exact WalkOut.noConfusion h
            | fuelOut =>
              simp only [hrec2] at h
              exact WalkOut.noConfusion h
            | ok fsN callsN plogN stN prN flN =>
              simp only [hrec2] at h
              cases mkind with
              | dirE =>
                simp only [] at h
                exact WalkOut.noConfusion h
              | fileE c =>
                cases hfsN : fsN path with
                | none =>
                  simp only [hfsN] at h
                  exact WalkOut.noConfusion h
                | some esN =>
                  simp only [hfsN] at h
                  obtain ⟨hwfN, ⟨dc1, hdc1, hdc1p⟩, ⟨dp1, hdp1⟩, hrecN⟩ :=
                    ih path r parsed fs _ true _ _ _ _ _ _ _ _ _ _ hrec2 hwf
                  have hwfMid : wfFS (fsSet fsN path (removeEntry esN mname)) :=
                    wfFS_fsSet hwfN (nodup_removeEntry esN mname (hwfN path esN hfsN))
                  obtain ⟨hwf2, ⟨dc2, hdc2, hdc2p⟩, ⟨dp2, hdp2⟩, hrec22⟩ :=
                    ih t r tags _ rest _ _ _ _ _ _ _ _ _ _ _ h hwfMid
                  have hmnf : mname ≠ FROZENFILE :=
                    marker_ne_frozen (globMarkers_head_marker hg)
                  have hrecMid : ∀ q, recordAt (fsSet fsN path (removeEntry esN mname)) q
                      = recordAt fsN q := by
                    intro q
                    by_cases hq : q = path
                    · subst hq
                      rw [recordAt_fsSet_self,
                        findEntry_removeEntry esN mname FROZENFILE (Ne.symm hmnf)]
                      simp [recordAt, entryAt, hfsN]
                    · rw [recordAt_fsSet_other _ _ _ _ hq]
                  refine ⟨hwf2, ⟨dc1 ++ dc2, by rw [hdc2, hdc1, List.append_assoc], ?_⟩,
                    ⟨dp1 ++ dp2, by rw [hdp2, hdp1, List.append_assoc]⟩, ?_⟩
                  · intro q hq
                    rcases List.mem_append.1 hq with hq | hq
                    · exact hdc1p q hq
                    · exact hdc2p q hq
                  · intro p hp
                    by_cases hmid : recordAt fs2 p
                        = recordAt (fsSet fsN path (removeEntry esN mname)) p
                    · rw [hmid, hrecMid p] at hp
                      obtain ⟨hmm, shape⟩ := hrecN p hp
                      refine ⟨by rw [hdp2]; exact List.mem_append_left _ hmm, ?_⟩
                      · rw [hmid, hrecMid p]
                        exact shape
                    · exact hrec22 p hmid

/-! ### Reaching directory `D`: the partial-failure dichotomy

If the remote store rejects `D ++ [f]` and accepts `D ++ [g]`, every walk
whose stack never holds two simultaneous ancestors of `D` either leaves all
observables of `D` alone, or processes `D` exactly once: the failed list
gains `D ++ [f]` once and the record written at `D` lists `g` but not `f`. -/

theorem walk_reach (s3 : S3) (D : Path) (f g : String)
    (hf : strStarts f "." = false) (hg : strStarts g "." = false)
    (hs3f : s3 (D ++ [f]) = false) (hs3g : s3 (D ++ [g]) = true) :
    ∀ (fuel : Nat) (t r : Path) (tags : Tags) (fs : FS) (stack : List Path)
    (st : Bool) (pr fl calls plog : List Path)
    (fs2 : FS) (calls2 plog2 : List Path) (st2 : Bool) (pr2 fl2 : List Path),
    applyTagLoop s3 fuel t r tags fs stack st pr fl calls plog
      = .ok fs2 calls2 plog2 st2 pr2 fl2 →
    noValidFS fs → wfFS fs → hasFG fs D f g → uniqKeys tags →
    stack.countP (fun q => decide (q <+: D)) ≤ 1 →
    (plog2.count D = plog.count D ∧
      fl2.count (D ++ [f]) = fl.count (D ++ [f]) ∧
      recordAt fs2 D = recordAt fs D) ∨
    (plog2.count D = plog.count D + 1 ∧
      fl2.count (D ++ [f]) = fl.count (D ++ [f]) + 1 ∧
      ∃ aff tg, recordAt fs2 D
          = some (.fileE (some (writtenRecord aff (pathString r) tg))) ∧
        g ∈ aff ∧ f ∉ aff) := by
  intro fuel
  induction fuel with
  | zero =>
    intro t r tags fs stack st pr fl calls plog fs2 calls2 plog2 st2 pr2 fl2 h
      hnv hwf hFG hut hcnt
    exact absurd h (by simp [applyTagLoop])
  | succ fuel ih =>
    intro t r tags fs stack st pr fl calls plog fs2 calls2 plog2 st2 pr2 fl2 h
      hnv hwf hFG hut hcnt
    cases stack with
    | nil =>
      rw [step_done] at h
      cases h
      exact Or.inl ⟨rfl, rfl, rfl⟩
    | cons path rest =>
      cases hfs : fs path with
      | none =>
        rw [step_missing s3 fuel t r tags rest st pr fl calls plog hfs] at h
        exact WalkOut.noConfusion h
      | some es =>
        cases hmk : (if path = t then [] else globMarkers es) with
        | nil =>
          have hskip : path = t ∨ globMarkers es = [] := by
            by_cases hpt : path = t
            · exact Or.inl hpt
            · rw [if_neg hpt] at hmk
              exact Or.inr hmk
          rcases hld2 : loadFrozen es with ⟨fr, b⟩
          cases b with
          | true =>
            have := hnv path es hfs
            rw [hld2] at this
            exact Bool.noConfusion this
          | false =>
            cases hw : writeRecord fs path es
                (writtenRecord (runDir s3 tags path es).affected (pathString r) tags) with
            | none =>
              rw [step_write_fail s3 fuel r tags rest st pr fl calls plog hfs hskip
                hld2 hw] at h
              exact WalkOut.noConfusion h
            | some fsB =>
              rw [step_process s3 fuel r tags rest st pr fl calls plog hfs hskip
                hld2 hw] at h
              have hfsB := writeRecord_some hw
              have hnvB : noValidFS fsB := by
                rw [hfsB]
                exact noValid_write hnv _ _ _
              have hwfB : wfFS fsB := by
                rw [hfsB]
                exact wfFS_fsSet hwf (nodup_setEntry es FROZENFILE _ (hwf path es hfs))
              have hFGB : hasFG fsB D f g := by
                rw [hfsB]
                exact hasFG_write hFG hf hg hfs _
              by_cases hanc : path <+: D
              · by_cases hpeq : path = D
                · -- the walk pops `D` itself: it is processed right now
                  rw [hpeq] at h hfs hcnt hfsB
                  obtain ⟨esD, cf, cg, hfsD, hmf0, hmg0⟩ := hFG
                  rw [hfs] at hfsD
                  injection hfsD with hes
                  subst hes
                  have hnd : (es.map Prod.fst).Nodup := hwf D es hfs
                  have hff := procEntries_file_out s3 tags (.aobj []) (.aobj []) D es
                    ⟨[], true, [], [], [], []⟩ f cf hnd hmf0 hf (List.not_mem_nil f)
                  have hgg := procEntries_file_out s3 tags (.aobj []) (.aobj []) D es
                    ⟨[], true, [], [], [], []⟩ g cg hnd hmg0 hg (List.not_mem_nil g)
                  have hfailD : (runDir s3 tags D es).failed.count (D ++ [f]) = 1 := by
                    have hx := (hff.2.1 hs3f).1
                    simpa [runDir] using hx
                  have haffDf : f ∉ (runDir s3 tags D es).affected := by
                    have hx := (hff.2.1 hs3f).2
                    simpa [runDir] using hx
                  have haffDg : g ∈ (runDir s3 tags D es).affected := by
                    have hx := hgg.2.2 hs3g (dictEq_refl hut)
                    simpa [runDir] using hx
                  have hDD : decide (D <+: D) = true :=
                    decide_eq_true (List.prefix_refl D)
                  have hrestP : ∀ q ∈ rest, ¬ q <+: D := by
                    simpa [List.countP_cons, hDD] using hcnt
                  have hstk2 : ∀ q ∈ (runDir s3 tags D es).kids.reverse ++ rest,
                      ¬ q <+: D := by
                    intro q hq
                    rcases List.mem_append.1 hq with hq | hq
                    · rw [List.mem_reverse, runDir_kids] at hq
                      obtain ⟨n, _, rfl⟩ := List.mem_map.1 hq
                      exact not_snoc_prefix D n
                    · exact hrestP q hq
                  obtain ⟨havrec, havplog, havfl⟩ :=
                    walk_avoid s3 D fuel t r tags fsB _ false _ _ _ _ _ _ _ _ _ _
                      h hnvB hstk2
                  right
                  refine ⟨?_, ?_, (runDir s3 tags D es).affected, tags, ?_,
                    haffDg, haffDf⟩
                  · rw [havplog, List.count_append]
                    simp
                  · rw [havfl f, List.count_append, hfailD]
                  · rw [recordAt_congr D havrec, hfsB, recordAt_fsSet_self,
                      findEntry_setEntry_self]
                · -- a strict ancestor of `D`: no observable of `D` changes here
                  have hpD : path ≠ D := hpeq
                  have hDD : decide (path <+: D) = true := decide_eq_true hanc
                  have hrestP : ∀ q ∈ rest, ¬ q <+: D := by
                    simpa [List.countP_cons, hDD] using hcnt
                  have hrest0 : rest.countP (fun q => decide (q <+: D)) = 0 :=
                    List.countP_eq_zero.2 (fun a ha => by simpa using hrestP a ha)
                  have hk1 : ((runDir s3 tags path es).kids.reverse).countP
                      (fun q => decide (q <+: D)) ≤ 1 := by
                    refine countP_le_one_of_unique _ ?_ ?_
                    · intro a ha b hb hpa hpb
                      rw [List.mem_reverse, runDir_kids] at ha hb
                      obtain ⟨n1, _, rfl⟩ := List.mem_map.1 ha
                      obtain ⟨n2, _, rfl⟩ := List.mem_map.1 hb
                      simp only [decide_eq_true_eq] at hpa hpb
                      exact prefix_same_len_eq hpa hpb (by simp)
                    · rw [List.nodup_reverse, runDir_kids]
                      exact List.Nodup.map (fun a b hab => (snoc_inj hab).2)
                        (List.Nodup.sublist (visKids_sublist es) (hwf path es hfs))
                  have hstk2 : (((runDir s3 tags path es).kids.reverse ++ rest)).countP
                      (fun q => decide (q <+: D)) ≤ 1 := by
                    rw [List.countP_append, hrest0]
                    simpa using hk1
                  have hz : (runDir s3 tags path es).failed.count (D ++ [f]) = 0 := by
                    rw [List.count_eq_zero]
                    intro hq
                    obtain ⟨dAff, dPr, dFl, dCalls, h1, h2, h3, h4, h5, h6, h7, h8, h9⟩ :=
                      procEntries_shape s3 tags (.aobj []) (.aobj []) path es
                        ⟨[], true, [], [], [], []⟩
                    have h3b : (runDir s3 tags path es).failed = dFl := by
                      simpa [runDir] using h3
                    rw [h3b] at hq
                    obtain ⟨hq2, _⟩ := h8 _ hq
                    obtain ⟨n2, hn2, _, _⟩ := h7 _ hq2
                    obtain ⟨hpp, _⟩ := snoc_inj hn2.symm
                    exact hpD hpp
                  have hrecB : recordAt fsB D = recordAt fs D := by
                    rw [hfsB, recordAt_fsSet_other _ _ _ _ (Ne.symm hpD)]
                  rcases ih t r tags fsB _ false _ _ _ _ _ _ _ _ _ _
                      h hnvB hwfB hFGB hut hstk2 with
                    ⟨ha1, ha2, ha3⟩ | ⟨hb1, hb2, aff, tg, hbr, hbg, hbf⟩
                  · left
                    refine ⟨?_, ?_, ?_⟩
                    · rw [ha1, List.count_append,
                        List.count_eq_zero.2 (show D ∉ [path] by simp [Ne.symm hpD])]
                      exact Nat.add_zero _
                    · rw [ha2, List.count_append, hz]
                      exact Nat.add_zero _
                    · rw [ha3, hrecB]
                  · right
                    refine ⟨?_, ?_, aff, tg, hbr, hbg, hbf⟩
                    · rw [hb1, List.count_append,
                        List.count_eq_zero.2 (show D ∉ [path] by simp [Ne.symm hpD])]
                    · rw [hb2, List.count_append, hz]
              · -- not an ancestor of `D`: no contribution, recurse on the tail
                have hpD : path ≠ D := by
                  intro hx
                  subst hx
                  exact hanc (List.prefix_refl _)
                have hDD : decide (path <+: D) = false := decide_eq_false hanc
                have hc2 : rest.countP (fun q => decide (q <+: D)) ≤ 1 := by
                  have hx := hcnt
                  simp [List.countP_cons, hDD] at hx
                  omega
                have hk0 : ((runDir s3 tags path es).kids.reverse).countP
                    (fun q => decide (q <+: D)) = 0 := by
                  rw [List.countP_eq_zero]
                  intro q hq
                  rw [List.mem_reverse, runDir_kids] at hq
                  obtain ⟨n, _, rfl⟩ := List.mem_map.1 hq
                  simp only [decide_eq_true_eq]
                  intro hpre
                  exact hanc (List.IsPrefix.trans (List.prefix_append path [n]) hpre)
                have hstk2 : (((runDir s3 tags path es).kids.reverse ++ rest)).countP
                    (fun q => decide (q <+: D)) ≤ 1 := by
                  rw [List.countP_append, hk0]
                  simpa using hc2
                have hz : (runDir s3 tags path es).failed.count (D ++ [f]) = 0 := by
                  rw [List.count_eq_zero]
                  intro hq
                  obtain ⟨dAff, dPr, dFl, dCalls, h1, h2, h3, h4, h5, h6, h7, h8, h9⟩ :=
                    procEntries_shape s3 tags (.aobj []) (.aobj []) path es
                      ⟨[], true, [], [], [], []⟩
                  have h3b : (runDir s3 tags path es).failed = dFl := by
                    simpa [runDir] using h3
                  rw [h3b] at hq
                  obtain ⟨hq2, _⟩ := h8 _ hq
                  obtain ⟨n2, hn2, _, _⟩ := h7 _ hq2
                  obtain ⟨hpp, _⟩ := snoc_inj hn2.symm
                  exact hpD hpp
                have hrecB : recordAt fsB D = recordAt fs D := by
                  rw [hfsB, recordAt_fsSet_other _ _ _ _ (Ne.symm hpD)]
                rcases ih t r tags fsB _ false _ _ _ _ _ _ _ _ _ _
                    h hnvB hwfB hFGB hut hstk2 with
                  ⟨ha1, ha2, ha3⟩ | ⟨hb1, hb2, aff, tg, hbr, hbg, hbf⟩
                · left
                  refine ⟨?_, ?_, ?_⟩
                  · rw [ha1, List.count_append,
                      List.count_eq_zero.2 (show D ∉ [path] by simp [Ne.symm hpD])]
                    exact Nat.add_zero _
                  · rw [ha2, List.count_append, hz]
                    exact Nat.add_zero _
                  · rw [ha3, hrecB]
                · right
                  refine ⟨?_, ?_, aff, tg, hbr, hbg, hbf⟩
                  · rw [hb1, List.count_append,
                      List.count_eq_zero.2 (show D ∉ [path] by simp [Ne.symm hpD])]
                  · rw [hb2, List.count_append, hz]
        | cons e ms =>
          obtain ⟨mname, mkind⟩ := e
          have hnet : path ≠ t := by
            intro hpt
            rw [if_pos hpt] at hmk
            cases hmk
          have hgm : globMarkers es = (mname, mkind) :: ms := by
            rwa [if_neg hnet] at hmk
          rw [step_marker s3 fuel r tags rest st pr fl calls plog hfs hnet hgm] at h
          cases hparse : parse_freezefile mname with
          | none =>
            simp only [hparse] at h
            exact WalkOut.noConfusion h
          | some parsed =>
            simp only [hparse] at h
            cases hrec2 : applyTagLoop s3 fuel path r parsed fs [path] true [] [] calls plog with
            | exn =>
              simp only [hrec2] at h
              exact WalkOut.noConfusion h
            | fuelOut =>
              simp only [hrec2] at h
              exact WalkOut.noConfusion h
            | ok fsN callsN plogN stN prN flN =>
              simp only [hrec2] at h
              cases mkind with
              | dirE =>
                simp only [] at h
                exact WalkOut.noConfusion h
              | fileE c =>
                cases hfsN : fsN path with
                | none =>
                  simp only [hfsN] at h
                  exact WalkOut.noConfusion h
                | some esN =>
                  simp only [hfsN] at h
                  have hnvN : noValidFS fsN :=
                    walk_noValid s3 fuel path r parsed fs [path] true [] [] calls plog
                      _ _ _ _ _ _ hrec2 hnv
                  have hwfN : wfFS fsN :=
                    (walk_shape s3 fuel path r parsed fs [path] true [] [] calls plog
                      _ _ _ _ _ _ hrec2 hwf).1
                  have hFGN : hasFG fsN D f g :=
                    walk_hasFG s3 D f g hf hg fuel path r parsed fs [path] true [] []
                      calls plog _ _ _ _ _ _ hrec2 hFG
                  have hmfroz : mname ≠ FROZENFILE :=
                    marker_ne_frozen (globMarkers_head_marker hgm)
                  have hnvMid : noValidFS (fsSet fsN path (removeEntry esN mname)) :=
                    noValid_remove hnvN hfsN hmfroz
                  have hwfMid : wfFS (fsSet fsN path (removeEntry esN mname)) :=
                    wfFS_fsSet hwfN (nodup_removeEntry esN mname (hwfN path esN hfsN))
                  have hFGMid : hasFG (fsSet fsN path (removeEntry esN mname)) D f g :=
                    hasFG_remove hFGN hf hg hfsN
                      (marker_is_hidden (globMarkers_head_marker hgm))
                  by_cases hanc : path <+: D
                  · -- the marker directory is an ancestor of `D` (possibly `D`):
                    -- the nested invocation may reach `D`; the tail cannot
                    have hDD : decide (path <+: D) = true := decide_eq_true hanc
                    have hrestP : ∀ q ∈ rest, ¬ q <+: D := by
                      simpa [List.countP_cons, hDD] using hcnt
                    have hone : ([path] : List Path).countP
                        (fun q => decide (q <+: D)) ≤ 1 := by
                      simp [List.countP_cons, hDD]
                    have hrecMid : recordAt (fsSet fsN path (removeEntry esN mname)) D
                        = recordAt fsN D := by
                      by_cases hpe : D = path
                      · subst hpe
                        rw [recordAt_fsSet_self,
                          findEntry_removeEntry esN mname FROZENFILE (Ne.symm hmfroz)]
                        unfold recordAt entryAt
                        rw [hfsN]
                      · rw [recordAt_fsSet_other _ _ _ _ hpe]
                    obtain ⟨havrec2, havplog2, havfl2⟩ :=
                      walk_avoid s3 D fuel t r tags _ rest _ _ _ _ _ _ _ _ _ _ _
                        h hnvMid hrestP
                    rcases ih path r parsed fs [path] true [] [] calls plog
                        _ _ _ _ _ _ hrec2 hnv hwf hFG (parse_uniq hparse) hone with
                      ⟨ha1, ha2, ha3⟩ | ⟨hb1, hb2, aff, tg, hbr, hbg, hbf⟩
                    · left
                      refine ⟨?_, ?_, ?_⟩
                      · rw [havplog2, ha1]
                      · rw [havfl2 f, List.count_append, ha2]
                        simp
                      · rw [recordAt_congr D havrec2, hrecMid, ha3]
                    · right
                      refine ⟨?_, ?_, aff, tg, ?_, hbg, hbf⟩
                      · rw [havplog2, hb1]
                      · rw [havfl2 f, List.count_append, hb2]
                        simp
                      · rw [recordAt_congr D havrec2, hrecMid, hbr]
                  · -- the marker directory is unrelated to `D`
                    have hpD : path ≠ D := by
                      intro hx
                      subst hx
                      exact hanc (List.prefix_refl _)
                    have hDD : decide (path <+: D) = false := decide_eq_false hanc
                    have hc2 : rest.countP (fun q => decide (q <+: D)) ≤ 1 := by
                      have hx := hcnt
                      simp [List.countP_cons, hDD] at hx
                      omega
                    obtain ⟨havrecN, havplogN, havflN⟩ :=
                      walk_avoid s3 D fuel path r parsed fs [path] true [] [] calls plog
                        _ _ _ _ _ _ hrec2 hnv
                        (by
                          intro q hq
                          rw [List.mem_singleton] at hq
                          subst hq
                          exact hanc)
                    have hrecMid : recordAt (fsSet fsN path (removeEntry esN mname)) D
                        = recordAt fs D := by
                      rw [recordAt_fsSet_other _ _ _ _ (Ne.symm hpD)]
                      exact recordAt_congr D havrecN
                    rcases ih t r tags _ rest _ _ _ _ _ _ _ _ _ _ _
                        h hnvMid hwfMid hFGMid hut hc2 with
                      ⟨ha1, ha2, ha3⟩ | ⟨hb1, hb2, aff, tg, hbr, hbg, hbf⟩
                    · left
                      refine ⟨?_, ?_, ?_⟩
                      · rw [ha1, havplogN]
                      · rw [ha2, List.count_append, havflN f]
                        simp
                      · rw [ha3, hrecMid]
                    · right
                      refine ⟨?_, ?_, aff, tg, hbr, hbg, hbf⟩
                      · rw [hb1, havplogN]
                      · rw [hb2, List.count_append, havflN f]
                        simp

/-! ### Discharging well-formedness side conditions on list-built stores -/

theorem fsOfList_mem {l : List (Path × Listing)} {p : Path} {es : Listing}
    (h : fsOfList l p = some es) : (p, es) ∈ l := by
  unfold fsOfList at h
  cases hf : l.find? (fun e => e.1 == p) with
  | none =>
    rw [hf] at h
    cases h
  | some e0 =>
    rw [hf] at h
    simp only [Option.map] at h
    injection h with h2
    have hmem := List.mem_of_find?_eq_some hf
    have hp := List.find?_some hf
    rw [beq_iff_eq] at hp
    rw [← h2, ← hp]
    exact hmem

theorem wfFS_fsOfList {l : List (Path × Listing)}
    (h : ∀ e ∈ l, (e.2.map Prod.fst).Nodup) : wfFS (fsOfList l) :=
  fun p es hp => h (p, es) (fsOfList_mem hp)

theorem noValidFS_fsOfList {l : List (Path × Listing)}
    (h : ∀ e ∈ l, (loadFrozen e.2).2 = false) : noValidFS (fsOfList l) :=
  fun p es hp => h (p, es) (fsOfList_mem hp)

/-! ### Parse failure on a segment without a key-value separator -/

theorem splitOnCharAux_no_char (c : Char) : ∀ (l acc : List Char), c ∉ l →
    splitOnCharAux c l acc = [acc.reverse ++ l] := by
  intro l
  induction l with
  | nil =>
    intro acc _
    simp [splitOnCharAux]
  | cons d rest ih =>
    intro acc h
    have hdc : d ≠ c := by
      intro hx
      subst hx
      exact h (List.mem_cons_self _ _)
    have hcr : c ∉ rest := fun hx => h (List.mem_cons_of_mem _ hx)
    simp only [splitOnCharAux, if_neg hdc]
    rw [ih (d :: acc) hcr]
    simp

theorem parseSegments_none {w : List Char} (hnoeq : '=' ∉ w) :
    ∀ (segs : List (List Char)), w ∈ segs → ∀ acc, parseSegments acc segs = none := by
  intro segs
  induction segs with
  | nil =>
    intro hw
    cases hw
  | cons seg rest ih =>
    intro hw acc
    rcases List.mem_cons.1 hw with rfl | hw2
    · have hsplit : splitOnChar '=' (String.mk w) = [w] := by
        show splitOnCharAux '=' w [] = [w]
        rw [splitOnCharAux_no_char '=' w [] hnoeq]
        simp
      simp [parseSegments, hsplit]
    · cases hsp : splitOnChar '=' (String.mk seg) with
      | nil => simp [parseSegments, hsp]
      | cons k tl =>
        cases tl with
        | nil => simp [parseSegments, hsp]
        | cons v tl2 =>
          simp only [parseSegments, hsp]
          exact ih hw2 _

/-! ### Driver root selection: duplicates and descendants -/

theorem not_self_sep (s : String) : strStarts s (s ++ "/") = false := by
  unfold strStarts
  cases hp : (s ++ "/").data.isPrefixOf s.data with
  | false => rfl
  | true =>
    exfalso
    have hpre := List.isPrefixOf_iff_prefix.1 hp
    have hlen := hpre.length_le
    have hdata : (s ++ "/").data = s.data ++ ['/'] := rfl
    rw [hdata] at hlen
    simp only [List.length_append, List.length_cons, List.length_nil] at hlen
    omega

theorem selectRoots_replicate (x : Path) : ∀ (k : Nat) (acc : List Path),
    (∀ y ∈ acc, strStarts (pathString x) (pathString y ++ "/") = false) →
    selectRoots acc (List.replicate k x) = acc ++ List.replicate k x := by
  intro k
  induction k with
  | zero =>
    intro acc _
    simp [selectRoots]
  | succ k ih =>
    intro acc hacc
    rw [List.replicate_succ]
    simp only [selectRoots]
    have hcf : ¬ (acc.any
        (fun x2 => strStarts (pathString x) (pathString x2 ++ "/")) = true) := by
      rw [List.any_eq_true]
      rintro ⟨y2, hy2, hsy⟩
      rw [hacc y2 hy2] at hsy
      cases hsy
    have hacc2 : ∀ y ∈ acc ++ [x],
        strStarts (pathString x) (pathString y ++ "/") = false := by
      intro y hy
      rcases List.mem_append.1 hy with hy | hy
      · exact hacc y hy
      · rw [List.mem_singleton] at hy
        subst hy
        exact not_self_sep _
    rw [if_neg hcf, ih (acc ++ [x]) hacc2]
    simp

theorem selectRoots_desc_count (z y : Path)
    (hz : strStarts (pathString z) (pathString y ++ "/") = true) :
    ∀ (cands acc : List Path), y ∈ acc →
    (selectRoots acc cands).count z = acc.count z := by
  intro cands
  induction cands with
  | nil =>
    intro acc _
    rfl
  | cons c cs ih =>
    intro acc hy
    simp only [selectRoots]
    by_cases hc : acc.any
        (fun x2 => strStarts (pathString c) (pathString x2 ++ "/")) = true
    · rw [if_pos hc]
      exact ih acc hy
    · rw [if_neg hc]
      have hcz : c ≠ z := by
        intro hx
        subst hx
        exact hc (List.any_eq_true.2 ⟨y, hy, hz⟩)
      rw [ih (acc ++ [c]) (List.mem_append_left _ hy), List.count_append,
        List.count_eq_zero.2 (show z ∉ [c] by simp [Ne.symm hcz])]
      exact Nat.add_zero _

/-! ### The claim theorems -/

/-- C1: when the walk pops a directory whose state record loads as
schema-valid and whose recorded rule origin differs from the invocation's
rule path, the *whole invocation* returns `(true, [], [])` immediately: the
remaining work stack is abandoned and the processed/failed lists and
success flag accumulated so far are discarded, with the store, the
remote-call log and the directory log left exactly as accumulated. -/
theorem C1_conflict_abandons_invocation
    (s3 : S3) (fuel : Nat) (t r : Path) (tags : Tags) (fs : FS)
    (path : Path) (rest : List Path) (st : Bool)
    (pr fl calls plog : List Path) (es : Listing) (fr : Frozen)
    (hfs : fs path = some es) (hskip : path = t ∨ globMarkers es = [])
    (hld : loadFrozen es = (fr, true))
    (hconf : fr.ruleAt ≠ JAtom.astr (pathString r)) :
    applyTagLoop s3 (fuel + 1) t r tags fs (path :: rest) st pr fl calls plog
      = .ok fs calls plog true [] [] := by
  rw [step_load s3 fuel r tags rest st pr fl calls plog hfs hskip]
  have hcond : (loadFrozen es).2 = true ∧
      (loadFrozen es).1.ruleAt ≠ JAtom.astr (pathString r) := by
    rw [hld]
    exact ⟨rfl, hconf⟩
  have hp : processDir s3 r tags fs path es = .conflict := by
    simp only [processDir]
    rw [if_pos hcond]
  rw [hp]

theorem C1_conflict_abandons_invocation_witness :
    c1fs ["t", "b"] = some [(".frozen", EKind.fileE (some validRec))] ∧
    loadFrozen [(".frozen", EKind.fileE (some validRec))]
      = (frozenOfJ validRec, true) ∧
    (frozenOfJ validRec).ruleAt ≠ JAtom.astr (pathString ["t"]) ∧
    applyTagLoop s3noTF 8 ["t"] ["t"] [("k", "v")] c1fs
        [["t", "b"], ["t", "c"]] false [] [["t", "f"]] [["t", "f"]] [["t"]]
      = .ok c1fs [["t", "f"]] [["t"]] true [] [] :=
  ⟨by decide, by decide, by decide,
    C1_conflict_abandons_invocation s3noTF 7 ["t"] ["t"] [("k", "v")] c1fs
      ["t", "b"] [["t", "c"]] false [] [["t", "f"]] [["t", "f"]] [["t"]]
      [(".frozen", EKind.fileE (some validRec))] (frozenOfJ validRec)
      (by decide) (Or.inr (by decide)) (by decide) (by decide)⟩

/-- C2: a non-target directory holding a directive marker is handled by
parsing the first marker and recursively walking that directory under the
*outer* rule origin `r` (not the directory itself) with the newly parsed
tags; the sub-result is merged, the marker file deleted, and the walk
continues with the tail of the stack, so the directory's children are not
processed under the outer rule.  Consequently every record the nested run
writes carries `rule-at = pathString r`, the outer origin. -/
theorem C2_nested_marker_outer_origin
    (s3 : S3) (fuel : Nat) (t r path : Path) (tags parsed : Tags) (fs fsN : FS)
    (rest : List Path) (st stN : Bool)
    (pr fl calls plog prN flN callsN plogN : List Path)
    (es esN : Listing) (mname : String) (c : Option JVal) (ms : Listing)
    (hfs : fs path = some es) (hne : path ≠ t)
    (hgm : globMarkers es = (mname, .fileE c) :: ms)
    (hparse : parse_freezefile mname = some parsed)
    (hrec : applyTagLoop s3 fuel path r parsed fs [path] true [] [] calls plog
      = .ok fsN callsN plogN stN prN flN)
    (hfsN : fsN path = some esN) (hwf : wfFS fs) :
    applyTagLoop s3 (fuel + 1) t r tags fs (path :: rest) st pr fl calls plog
      = applyTagLoop s3 fuel t r tags (fsSet fsN path (removeEntry esN mname))
          rest (st && stN) (pr ++ prN) (fl ++ flN) callsN plogN ∧
    (∀ p, recordAt fsN p ≠ recordAt fs p →
      ∃ aff tg, recordAt fsN p
        = some (.fileE (some (writtenRecord aff (pathString r) tg))) ∧
        jGet (writtenRecord aff (pathString r) tg) "rule-at"
          = some (.astr (pathString r))) := by
  constructor
  · rw [step_marker s3 fuel r tags rest st pr fl calls plog hfs hne hgm]
    simp only [hparse, hrec, hfsN]
  · intro p hp
    obtain ⟨_, _, _, hrec4⟩ :=
      walk_shape s3 fuel path r parsed fs [path] true [] [] calls plog
        _ _ _ _ _ _ hrec hwf
    obtain ⟨_, aff, tg, _, hw⟩ := hrec4 p hp
    exact ⟨aff, tg, hw, jGet_written_ruleAt aff (pathString r) tg⟩

theorem C2_nested_marker_outer_origin_witness :
    c2fs ["t", "s"] = some [(".freeze.k=v", EKind.fileE none),
      ("y", EKind.fileE none)] ∧
    globMarkers [(".freeze.k=v", EKind.fileE none), ("y", EKind.fileE none)]
      = [(".freeze.k=v", EKind.fileE none)] ∧
    parse_freezefile ".freeze.k=v" = some [("k", "v")] ∧
    applyTagLoop s3all 8 ["t", "s"] ["t"] [("k", "v")] c2fs [["t", "s"]]
        true [] [] [] []
      = .ok c2fsN [["t", "s", "y"]] [["t", "s"]] false [["t", "s", "y"]] [] ∧
    c2fsN ["t", "s"] = some [(".freeze.k=v", EKind.fileE none),
      ("y", EKind.fileE none),
      (FROZENFILE, EKind.fileE (some (writtenRecord ["y"] (pathString ["t"])
        [("k", "v")])))] ∧
    wfFS c2fs ∧
    (applyTagLoop s3all 9 ["t"] ["t"] [("a", "b")] c2fs [["t", "s"]] true [] [] [] []
      = applyTagLoop s3all 8 ["t"] ["t"] [("a", "b")]
          (fsSet c2fsN ["t", "s"] (removeEntry
            [(".freeze.k=v", EKind.fileE none), ("y", EKind.fileE none),
             (FROZENFILE, EKind.fileE (some (writtenRecord ["y"]
               (pathString ["t"]) [("k", "v")])))] ".freeze.k=v"))
          [] (true && false) ([] ++ [["t", "s", "y"]]) ([] ++ [])
          [["t", "s", "y"]] [["t", "s"]] ∧
     (∀ p, recordAt c2fsN p ≠ recordAt c2fs p →
       ∃ aff tg, recordAt c2fsN p
         = some (.fileE (some (writtenRecord aff (pathString ["t"]) tg))) ∧
         jGet (writtenRecord aff (pathString ["t"]) tg) "rule-at"
           = some (.astr (pathString ["t"])))) :=
  ⟨by decide, by decide, by decide, rfl, by decide, wfFS_fsOfList (by decide),
    C2_nested_marker_outer_origin s3all 8 ["t"] ["t"] ["t", "s"]
      [("a", "b")] [("k", "v")] c2fs c2fsN [] true false [] [] [] []
      [["t", "s", "y"]] [] [["t", "s", "y"]] [["t", "s"]]
      [(".freeze.k=v", EKind.fileE none), ("y", EKind.fileE none)]
      [(".freeze.k=v", EKind.fileE none), ("y", EKind.fileE none),
       (FROZENFILE, EKind.fileE (some (writtenRecord ["y"] (pathString ["t"])
         [("k", "v")])))]
      ".freeze.k=v" none []
      (by decide) (by decide) (by decide) (by decide) rfl (by decide)
      (wfFS_fsOfList (by decide))⟩

/-- C4: if directory `D` holds a schema-valid state record (so the invoked
rule's origin necessarily differs from the recorded one) and contains no
directive marker, then any walk started at a target that is not a strict
descendant of `D` leaves the entire subtree of `D` — record included —
untouched and issues no remote tagging call for any file strictly under
`D`. -/
theorem C4_conflicting_subtree_frame
    (s3 : S3) (fuel : Nat) (fs : FS) (t r D : Path) (tags : Tags)
    (esD : Listing) (fs2 : FS) (calls2 plog2 : List Path) (st2 : Bool)
    (pr2 fl2 : List Path)
    (hD : fs D = some esD) (hv : (loadFrozen esD).2 = true)
    (hgD : globMarkers esD = [])
    (ht : ¬ (D <+: t ∧ t ≠ D))
    (h : apply_tag s3 fuel fs t r tags = .ok fs2 calls2 plog2 st2 pr2 fl2) :
    (∀ q, D <+: q → fs2 q = fs q) ∧
    (∀ c ∈ calls2, ¬ (D <+: c ∧ c ≠ D)) := by
  obtain ⟨h1, h2⟩ :=
    walk_subtree_frame s3 D fuel t r tags fs [t] true [] [] [] []
      fs2 calls2 plog2 st2 pr2 fl2 h ⟨esD, hD, hv, hgD⟩
      (by
        intro q hq
        rw [List.mem_singleton] at hq
        subst hq
        exact ht)
  refine ⟨h1, ?_⟩
  intro c hc
  rcases h2 c hc with hc2 | hc2
  · exact absurd hc2 (List.not_mem_nil c)
  · exact hc2

theorem C4_conflicting_subtree_frame_witness :
    c1fs ["t", "b"] = some [(".frozen", EKind.fileE (some validRec))] ∧
    (loadFrozen [(".frozen", EKind.fileE (some validRec))]).2 = true ∧
    globMarkers [(".frozen", EKind.fileE (some validRec))] = [] ∧
    ¬ (["t", "b"] <+: ["t"] ∧ (["t"] : Path) ≠ ["t", "b"]) ∧
    apply_tag s3noTF 9 c1fs ["t"] ["t"] [("k", "v")]
      = .ok c1fs2 [["t", "f"]] [["t"]] true [] [] ∧
    ((∀ q, ["t", "b"] <+: q → c1fs2 q = c1fs q) ∧
     (∀ c ∈ ([["t", "f"]] : List Path), ¬ (["t", "b"] <+: c ∧ c ≠ ["t", "b"]))) :=
  ⟨by decide, by decide, by decide, by decide, rfl,
    C4_conflicting_subtree_frame s3noTF 9 c1fs ["t"] ["t"] ["t", "b"]
      [("k", "v")] [(".frozen", EKind.fileE (some validRec))] c1fs2
      [["t", "f"]] [["t"]] true [] []
      (by decide) (by decide) (by decide) (by decide) rfl⟩

/-- C5: if the remote store rejects `D/f` and accepts `D/g` and no state
record anywhere in the namespace is schema-valid (so the rule-conflict
early return never fires), then an `apply_tag` walk either never processes
`D` (all its observables unchanged) or processes it exactly once, in which
case the returned failed list holds `f`'s path exactly once and the record
persisted for `D` lists `g` and not `f` in affected-files. -/
theorem C5_partial_failure_dichotomy
    (s3 : S3) (fuel : Nat) (fs : FS) (t r D : Path) (tags : Tags) (f g : String)
    (fs2 : FS) (calls2 plog2 : List Path) (st2 : Bool) (pr2 fl2 : List Path)
    (hf : strStarts f "." = false) (hg : strStarts g "." = false)
    (hs3f : s3 (D ++ [f]) = false) (hs3g : s3 (D ++ [g]) = true)
    (h : apply_tag s3 fuel fs t r tags = .ok fs2 calls2 plog2 st2 pr2 fl2)
    (hnv : noValidFS fs) (hwf : wfFS fs) (hFG : hasFG fs D f g)
    (hut : uniqKeys tags) :
    (plog2.count D = 0 ∧ fl2.count (D ++ [f]) = 0 ∧
      recordAt fs2 D = recordAt fs D) ∨
    (plog2.count D = 1 ∧ fl2.count (D ++ [f]) = 1 ∧
      ∃ aff tg, recordAt fs2 D
          = some (.fileE (some (writtenRecord aff (pathString r) tg))) ∧
        g ∈ aff ∧ f ∉ aff) := by
  have hcnt : ([t] : List Path).countP (fun q => decide (q <+: D)) ≤ 1 := by
    cases hd : decide (t <+: D) <;> simp [List.countP_cons, hd]
  have hres := walk_reach s3 D f g hf hg hs3f hs3g fuel t r tags fs [t]
    true [] [] [] [] fs2 calls2 plog2 st2 pr2 fl2 h hnv hwf hFG hut hcnt
  simpa using hres

theorem C5_partial_failure_dichotomy_witness :
    strStarts "f" "." = false ∧ strStarts "g" "." = false ∧
    s3noTF (["t"] ++ ["f"]) = false ∧ s3noTF (["t"] ++ ["g"]) = true ∧
    apply_tag s3noTF 9 c5bfs ["t"] ["t"] [("k", "v")]
      = .ok c5bfs2 [["t", "f"], ["t", "g"]] [["t"]] false [["t", "g"]]
          [["t", "f"]] ∧
    noValidFS c5bfs ∧ wfFS c5bfs ∧ hasFG c5bfs ["t"] "f" "g" ∧
    uniqKeys [("k", "v")] ∧
    ((([["t"]] : List Path).count ["t"] = 0 ∧
      ([["t", "f"]] : List Path).count (["t"] ++ ["f"]) = 0 ∧
      recordAt c5bfs2 ["t"] = recordAt c5bfs ["t"]) ∨
     (([["t"]] : List Path).count ["t"] = 1 ∧
      ([["t", "f"]] : List Path).count (["t"] ++ ["f"]) = 1 ∧
      ∃ aff tg, recordAt c5bfs2 ["t"]
          = some (.fileE (some (writtenRecord aff (pathString ["t"]) tg))) ∧
        "g" ∈ aff ∧ "f" ∉ aff)) :=
  ⟨by decide, by decide, by decide, by decide, rfl,
    noValidFS_fsOfList (by decide), wfFS_fsOfList (by decide),
    ⟨[("f", EKind.fileE none), ("g", EKind.fileE none)], none, none,
      by decide, by decide, by decide⟩, by unfold uniqKeys; decide,
    C5_partial_failure_dichotomy s3noTF 9 c5bfs ["t"] ["t"] ["t"]
      [("k", "v")] "f" "g" c5bfs2 [["t", "f"], ["t", "g"]] [["t"]] false
      [["t", "g"]] [["t", "f"]]
      (by decide) (by decide) (by decide) (by decide) rfl
      (noValidFS_fsOfList (by decide)) (wfFS_fsOfList (by decide))
      ⟨[("f", EKind.fileE none), ("g", EKind.fileE none)], none, none,
        by decide, by decide, by decide⟩ (by unfold uniqKeys; decide)⟩

/-- C6: a target whose state record is absent, unreadable or schema-invalid
never raises out of the walk: the load yields the empty base record, the
directory is processed from it (remote calls, not an exception) and the
walk continues with the success flag forced to `false`; the invocation's
returned flag is `false` unless a later rule-conflict return discarded the
aggregate, in which case the returned triple is exactly `(true, [], [])`. -/
theorem C6_invalid_record_recovers
    (s3 : S3) (fuel : Nat) (t r : Path) (tags : Tags) (fs : FS) (fr : Frozen)
    (es : Listing) (fsB fs2 : FS) (calls2 plog2 : List Path) (st2 : Bool)
    (pr2 fl2 : List Path)
    (hfs : fs t = some es) (hld : loadFrozen es = (fr, false))
    (hw : writeRecord fs t es
      (writtenRecord (runDir s3 tags t es).affected (pathString r) tags)
      = some fsB)
    (h : apply_tag s3 (fuel + 1) fs t r tags = .ok fs2 calls2 plog2 st2 pr2 fl2) :
    fr = baseFrozen ∧
    apply_tag s3 (fuel + 1) fs t r tags
      = applyTagLoop s3 fuel t r tags fsB ((runDir s3 tags t es).kids.reverse)
          false (runDir s3 tags t es).processed (runDir s3 tags t es).failed
          (runDir s3 tags t es).calls [t] ∧
    (st2 = false ∨ (st2 = true ∧ pr2 = [] ∧ fl2 = [])) := by
  have hstep : apply_tag s3 (fuel + 1) fs t r tags
      = applyTagLoop s3 fuel t r tags fsB ((runDir s3 tags t es).kids.reverse)
          false (runDir s3 tags t es).processed (runDir s3 tags t es).failed
          (runDir s3 tags t es).calls [t] := by
    show applyTagLoop s3 (fuel + 1) t r tags fs [t] true [] [] [] [] = _
    rw [step_process s3 fuel r tags [] true [] [] [] [] hfs (Or.inl rfl) hld hw,
      List.append_nil]
    simp only [List.nil_append]
  refine ⟨loadFrozen_false hld, hstep, ?_⟩
  rcases Bool.eq_false_or_eq_true st2 with hst | hst
  swap
  · exact Or.inl hst
  · rw [hstep] at h
    rw [hst] at h
    obtain ⟨hpr, hfl⟩ :=
      state_false_sticky s3 fuel t r tags fsB _ _ _ _ _ _ _ _ _ _ _ h rfl
    exact Or.inr ⟨hst, hpr, hfl⟩

theorem C6_invalid_record_recovers_witness :
    c3fs ["a"] = some [("x", EKind.fileE none)] ∧
    loadFrozen [("x", EKind.fileE none)] = (baseFrozen, false) ∧
    writeRecord c3fs ["a"] [("x", EKind.fileE none)]
      (writtenRecord (runDir s3all [("k", "v")] ["a"]
        [("x", EKind.fileE none)]).affected (pathString ["a"]) [("k", "v")])
      = some (fsSet c3fs ["a"] (setEntry [("x", EKind.fileE none)] FROZENFILE
          (.fileE (some (writtenRecord (runDir s3all [("k", "v")] ["a"]
            [("x", EKind.fileE none)]).affected (pathString ["a"])
            [("k", "v")]))))) ∧
    apply_tag s3all 9 c3fs ["a"] ["a"] [("k", "v")]
      = .ok c3fs2 [["a", "x"]] [["a"]] false [["a", "x"]] [] ∧
    (baseFrozen = baseFrozen ∧
     apply_tag s3all 9 c3fs ["a"] ["a"] [("k", "v")]
       = applyTagLoop s3all 8 ["a"] ["a"] [("k", "v")]
           (fsSet c3fs ["a"] (setEntry [("x", EKind.fileE none)] FROZENFILE
             (.fileE (some (writtenRecord (runDir s3all [("k", "v")] ["a"]
               [("x", EKind.fileE none)]).affected (pathString ["a"])
               [("k", "v")])))))
           ((runDir s3all [("k", "v")] ["a"]
             [("x", EKind.fileE none)]).kids.reverse)
           false
           (runDir s3all [("k", "v")] ["a"] [("x", EKind.fileE none)]).processed
           (runDir s3all [("k", "v")] ["a"] [("x", EKind.fileE none)]).failed
           (runDir s3all [("k", "v")] ["a"] [("x", EKind.fileE none)]).calls
           [["a"]] ∧
     (false = false ∨ (false = true ∧ ([["a", "x"]] : List Path) = [] ∧
       ([] : List Path) = ([] : List Path)))) :=
  ⟨by decide, by decide, rfl, rfl,
    C6_invalid_record_recovers s3all 8 ["a"] ["a"] [("k", "v")] c3fs
      baseFrozen [("x", EKind.fileE none)]
      (fsSet c3fs ["a"] (setEntry [("x", EKind.fileE none)] FROZENFILE
        (.fileE (some (writtenRecord (runDir s3all [("k", "v")] ["a"]
          [("x", EKind.fileE none)]).affected (pathString ["a"])
          [("k", "v")])))))
      c3fs2 [["a", "x"]] [["a"]] false [["a", "x"]] []
      (by decide) (by decide) rfl rfl⟩

/-- C7: the program's own special names — directive markers (prefixed
`.freeze.`) and the state record `.frozen` — begin with a dot, so the
hidden-file filter skips them before the per-entry classification can run:
no remote tagging call issued anywhere in a walk ever targets a dot-named
file, and in particular never one of those special names. -/
theorem C7_special_names_prefiltered
    (s3 : S3) (fuel : Nat) (fs : FS) (t r : Path) (tags : Tags)
    (fs2 : FS) (calls2 plog2 : List Path) (st2 : Bool) (pr2 fl2 : List Path)
    (n : String)
    (hn : strStarts n FREEZEFILE_PREFIX = true ∨ n = FROZENFILE)
    (h : apply_tag s3 fuel fs t r tags = .ok fs2 calls2 plog2 st2 pr2 fl2)
    (hwf : wfFS fs) :
    strStarts n "." = true ∧
    (∀ q ∈ calls2, ∃ d nm, q = d ++ [nm] ∧ strStarts nm "." = false ∧
      nm ≠ n) := by
  have hhid : strStarts n "." = true := by
    rcases hn with hp | hfz
    · exact marker_is_hidden hp
    · subst hfz
      decide
  refine ⟨hhid, ?_⟩
  obtain ⟨_, ⟨dc, hdc, hprop⟩, _, _⟩ :=
    walk_shape s3 fuel t r tags fs [t] true [] [] [] []
      fs2 calls2 plog2 st2 pr2 fl2 h hwf
  intro q hq
  rw [hdc] at hq
  simp only [List.nil_append] at hq
  obtain ⟨d, nm, rfl, hnm⟩ := hprop q hq
  refine ⟨d, nm, rfl, hnm, ?_⟩
  intro hc
  subst hc
  rw [hhid] at hnm
  exact Bool.noConfusion hnm

theorem C7_special_names_prefiltered_witness :
    (strStarts FROZENFILE FREEZEFILE_PREFIX = true ∨
      FROZENFILE = FROZENFILE) ∧
    apply_tag s3all 9 c3fs ["a"] ["a"] [("k", "v")]
      = .ok c3fs2 [["a", "x"]] [["a"]] false [["a", "x"]] [] ∧
    wfFS c3fs ∧
    (strStarts FROZENFILE "." = true ∧
     ∀ q ∈ ([[ "a", "x"]] : List Path), ∃ d nm, q = d ++ [nm] ∧
       strStarts nm "." = false ∧ nm ≠ FROZENFILE) :=
  ⟨Or.inr rfl, rfl, wfFS_fsOfList (by decide),
    C7_special_names_prefiltered s3all 9 c3fs ["a"] ["a"] [("k", "v")]
      c3fs2 [["a", "x"]] [["a"]] false [["a", "x"]] [] FROZENFILE
      (Or.inr rfl) rfl (wfFS_fsOfList (by decide))⟩

/-- C8: the driver's root selection keeps exact duplicates — a directory
that appears once per marker among the sorted candidates is selected once
per occurrence, because the `startswith(x + sep)` filter only matches
strict descendants — while a strict descendant of an already-accepted root
is never added again. -/
theorem C8_selection_properties (x z y : Path) (k : Nat)
    (acc cands : List Path) (hy : y ∈ acc)
    (hz : strStarts (pathString z) (pathString y ++ "/") = true) :
    selectRoots [] (List.replicate k x) = List.replicate k x ∧
    (selectRoots acc cands).count z = acc.count z := by
  constructor
  · have hrep := selectRoots_replicate x k []
      (fun y2 hy2 => absurd hy2 (List.not_mem_nil _))
    simpa using hrep
  · exact selectRoots_desc_count z y hz cands acc hy

theorem C8_selection_properties_witness :
    (["a"] : Path) ∈ ([["a"]] : List Path) ∧
    strStarts (pathString ["a", "b"]) (pathString ["a"] ++ "/") = true ∧
    (selectRoots [] (List.replicate 2 ["a"]) = List.replicate 2 ["a"] ∧
     (selectRoots [["a"]] [["a", "b"]]).count ["a", "b"]
       = ([["a"]] : List Path).count ["a", "b"]) :=
  ⟨by decide, by decide,
    C8_selection_properties ["a"] ["a", "b"] ["a"] 2 [["a"]] [["a", "b"]]
      (by decide) (by decide)⟩

/-- C9: every state record a walk persists stores an `affected-files`
array without duplicates: whenever the record slot of a directory changed,
the new record is the dumped base record whose affected list is `Nodup`,
and its `affected-files` field is exactly that list. -/
theorem C9_affected_files_nodup
    (s3 : S3) (fuel : Nat) (fs : FS) (t r : Path) (tags : Tags)
    (fs2 : FS) (calls2 plog2 : List Path) (st2 : Bool) (pr2 fl2 : List Path)
    (p : Path)
    (h : apply_tag s3 fuel fs t r tags = .ok fs2 calls2 plog2 st2 pr2 fl2)
    (hwf : wfFS fs) (hch : recordAt fs2 p ≠ recordAt fs p) :
    ∃ aff tg, aff.Nodup ∧
      recordAt fs2 p
        = some (.fileE (some (writtenRecord aff (pathString r) tg))) ∧
      jGet (writtenRecord aff (pathString r) tg) "affected-files"
        = some (.aarr aff) := by
  obtain ⟨_, _, _, hrec4⟩ :=
    walk_shape s3 fuel t r tags fs [t] true [] [] [] []
      fs2 calls2 plog2 st2 pr2 fl2 h hwf
  obtain ⟨_, aff, tg, hnd, hwr⟩ := hrec4 p hch
  exact ⟨aff, tg, hnd, hwr, jGet_written_affected aff (pathString r) tg⟩

theorem C9_affected_files_nodup_witness :
    apply_tag s3all 9 c3fs ["a"] ["a"] [("k", "v")]
      = .ok c3fs2 [["a", "x"]] [["a"]] false [["a", "x"]] [] ∧
    wfFS c3fs ∧
    recordAt c3fs2 ["a"] ≠ recordAt c3fs ["a"] ∧
    ∃ aff tg, aff.Nodup ∧
      recordAt c3fs2 ["a"]
        = some (.fileE (some (writtenRecord aff (pathString ["a"]) tg))) ∧
      jGet (writtenRecord aff (pathString ["a"]) tg) "affected-files"
        = some (.aarr aff) :=
  ⟨rfl, wfFS_fsOfList (by decide), by decide,
    C9_affected_files_nodup s3all 9 c3fs ["a"] ["a"] [("k", "v")] c3fs2
      [["a", "x"]] [["a"]] false [["a", "x"]] [] ["a"] rfl
      (wfFS_fsOfList (by decide)) (by decide)⟩

/-- C10: `parse_freezefile` is partial: if some `;`-separated segment of a
marker name's suffix contains no `=`, parsing yields no tag dict (the
Python code raises `IndexError` there), and when such a marker is met as a
nested directive the exception propagates out of the walk, aborting the
entire invocation. -/
theorem C10_parse_partial_aborts
    (s3 : S3) (fuel : Nat) (t r path : Path) (tags : Tags) (fs : FS)
    (rest : List Path) (st : Bool) (pr fl calls plog : List Path)
    (es : Listing) (mname : String) (mk : EKind) (ms : Listing) (w : List Char)
    (hfs : fs path = some es) (hne : path ≠ t)
    (hgm : globMarkers es = (mname, mk) :: ms)
    (hmem : w ∈ splitOnChar ';' (strDropN mname (strLen FREEZEFILE_PREFIX)))
    (hnoeq : '=' ∉ w) :
    parse_freezefile mname = none ∧
    applyTagLoop s3 (fuel + 1) t r tags fs (path :: rest) st pr fl calls plog
      = .exn := by
  have hp : parse_freezefile mname = none := by
    unfold parse_freezefile
    exact parseSegments_none hnoeq _ hmem []
  refine ⟨hp, ?_⟩
  rw [step_marker s3 fuel r tags rest st pr fl calls plog hfs hne hgm]
  simp only [hp]

theorem C10_parse_partial_aborts_witness :
    c10fs ["t", "s"] = some [(".freeze.kv", EKind.fileE none)] ∧
    globMarkers [(".freeze.kv", EKind.fileE none)]
      = [(".freeze.kv", EKind.fileE none)] ∧
    (['k', 'v'] : List Char)
      ∈ splitOnChar ';' (strDropN ".freeze.kv" (strLen FREEZEFILE_PREFIX)) ∧
    '=' ∉ (['k', 'v'] : List Char) ∧
    (parse_freezefile ".freeze.kv" = none ∧
     applyTagLoop s3all 9 ["t"] ["t"] [("k", "v")] c10fs [["t", "s"]]
       true [] [] [] [] = .exn) :=
  ⟨by decide, by decide, by decide, by decide,
    C10_parse_partial_aborts s3all 8 ["t"] ["t"] ["t", "s"] [("k", "v")]
      c10fs [] true [] [] [] [] [(".freeze.kv", EKind.fileE none)]
      ".freeze.kv" (EKind.fileE none) [] ['k', 'v']
      (by decide) (by decide) (by decide) (by decide) (by decide)⟩

end ArchiveFreezer
